import Mathlib

/-!
# CWM window manager: verification of the geometry and state engine

A shallow embedding of the cwm tiling window manager core (Rust sources under
`src/`: `src/tag/node.rs`, `src/tag/client.rs`, `src/tag/layer.rs`,
`src/tag/mod.rs`, `src/monitor/mod.rs`, `src/connections.rs`), together with
theorems settling the specified properties of the BSP layout tree, the
nine-slot layer table, the focus stack and the tag registry.

Modelling conventions, used consistently below:

* Machine integers `i16`/`u16` are modelled as `Int`; where the source relies
  on wrapping arithmetic (`overflowing_add`/`overflowing_sub` on `u16`) the
  model reduces modulo `2^16` explicitly.
* `f32` split ratios are modelled as exact rationals (`ℚ`).  The constants
  `Side::MIN = 0.1` and `Side::MAX = 0.9` become `1/10` and `9/10`.
* Rust `Vec` used as a stack (`push`/`pop`/`last` at the end) is modelled as a
  Lean `List` whose head is the top of the stack.
* The crate's current `utils.rs` (the arena `Stack`, `Rect::split` with gap,
  `Rect::reposition`, `pop_set`, `pop_set_ord`) is not among the provided
  sources; those few helpers are modelled from the spec and are marked
  `Modelled from the spec:` in their doc comments.  In particular the
  handle-stable `Stack` is modelled as a plain list in logical order: a stored
  handle always denotes the unique occurrence of its element, so removal by
  handle becomes removal by value.
* All display-server traffic (`configure_window`, `map_window`, borders,
  EWMH properties, hooks, IPC responses) has no model state; the functions
  performing only such calls are modelled as the identity on the model state.
-/

namespace CWM

/-- `Split` from `src/tag/node.rs`. -/
inductive Split where
  | Horizontal
  | Vertical
deriving DecidableEq, Repr

/-- `Side` from `src/tag/node.rs`. -/
inductive Side where
  | Left
  | Right
  | Top
  | Bottom
deriving DecidableEq, Repr

/-- `Side::MIN = 0.1f32`, modelled as the exact rational `1/10` (written as a
`Rat` constructor literal so that kernel evaluation can inspect it; Batteries
marks the `Rat` arithmetic operations irreducible). -/
def Side.MIN : ℚ := ⟨1, 10, by decide, by decide⟩

/-- `Side::MAX = 1.0 - Side::MIN = 9/10`, as a constructor literal. -/
def Side.MAX : ℚ := ⟨9, 10, by decide, by decide⟩

/-- The source writes `MAX` as `1.0 - Self::MIN`; the literal above agrees. -/
theorem Side.MAX_eq : Side.MAX = 1 - Side.MIN := by
  rw [Side.MIN, Side.MAX, Rat.mk'_eq_divInt, Rat.mk'_eq_divInt]
  norm_num [Rat.divInt_eq_div]

/-- `Side::get_split` from `src/tag/node.rs`. -/
def Side.get_split : Side → Split × Bool
  | .Left => (.Vertical, true)
  | .Right => (.Vertical, false)
  | .Top => (.Horizontal, true)
  | .Bottom => (.Horizontal, false)

/-- `Side::parse_amt` from `src/tag/node.rs`. -/
def Side.parse_amt (s : Side) (amt : Int) : Int × Int :=
  match s with
  | .Left => (-amt, 0)
  | .Right => (amt, 0)
  | .Top => (0, -amt)
  | .Bottom => (0, amt)

/-- `Rect` from `utils.rs` (`x, y : i16`, `width, height : u16`, all as `Int`). -/
structure Rect where
  x : Int
  y : Int
  width : Int
  height : Int
deriving DecidableEq, Repr

instance : Inhabited Rect := ⟨⟨0, 0, 0, 0⟩⟩

/-- Modelled from the spec: `Rect::split(orientation, ratio, gap)` of the
current `utils.rs` is absent from `src/`; per §4.2.2 the rect is split along
the orientation at the ratio, with `gap/2` removed on each side of the seam.
The exact pixel values never decide a claim below (only stored rects do). -/
def Rect.splitRect (r : Rect) (s : Split) (ratio : ℚ) (gap : Int) : Rect × Rect :=
  match s with
  | .Vertical =>
      let w1 : Int := round (ratio * r.width)
      (⟨r.x, r.y, w1 - gap / 2, r.height⟩,
       ⟨r.x + w1 + gap / 2, r.y, r.width - w1 - gap / 2, r.height⟩)
  | .Horizontal =>
      let h1 : Int := round (ratio * r.height)
      (⟨r.x, r.y, r.width, h1 - gap / 2⟩,
       ⟨r.x, r.y + h1 + gap / 2, r.width, r.height - h1 - gap / 2⟩)

/-- Modelled from the spec: `Rect::reposition(old, new)` of the current
`utils.rs` is absent from `src/`; per §3 it is an affine rescale of the origin
relative to a changed parent frame. -/
def Rect.reposition (r : Rect) (old new_ : Rect) : Rect :=
  { r with
    x := new_.x + (if old.width = 0 then 0 else (r.x - old.x) * new_.width / old.width)
    y := new_.y + (if old.height = 0 then 0 else (r.y - old.y) * new_.height / old.height) }

/-- `ClientFlags` from `src/tag/client.rs`. -/
structure ClientFlags where
  urgent : Bool
  hidden : Bool
  floating : Bool
  fullscreen : Bool
  sticky : Bool
  psuedoUrgent : Bool
deriving DecidableEq, Repr

instance : Inhabited ClientFlags := ⟨⟨false, false, false, false, false, false⟩⟩

/-- `ClientFlags::absent` from `src/tag/client.rs`:
`self.floating | self.fullscreen | self.hidden`. -/
def ClientFlags.absent (f : ClientFlags) : Bool :=
  f.floating || f.fullscreen || f.hidden

/-- `Layer` sub-layer constants from `src/tag/layer.rs`. -/
def Layer.TILING : Nat := 0

def Layer.FLOATING : Nat := 1

def Layer.FULLSCREEN : Nat := 2

def Layer.COUNT : Nat := 3

def Layer.SUBCOUNT : Nat := 3

/-- `ClientFlags::get_layer` from `src/tag/client.rs`: fullscreen wins over
floating, default is tiling. -/
def ClientFlags.get_layer (f : ClientFlags) : Nat :=
  if f.fullscreen then Layer.FULLSCREEN
  else if f.floating then Layer.FLOATING
  else Layer.TILING

/-- `StackLayer` from `src/tag/layer.rs`. -/
inductive StackLayer where
  | Below
  | Normal
  | Above
deriving DecidableEq, Repr

instance : Inhabited StackLayer := ⟨.Normal⟩

/-- `StackLayer::get` from `src/tag/layer.rs`. -/
def StackLayer.get : StackLayer → Nat
  | .Below => 0
  | .Normal => Layer.SUBCOUNT
  | .Above => Layer.SUBCOUNT * 2

/-- `Layer` (a stacking slot) from `src/tag/layer.rs`.  `Multi` holds the
handle-stable `Stack`, modelled as a list in logical order (front = head). -/
inductive LayerSlot where
  | single : Option Nat → LayerSlot
  | multi : List Nat → LayerSlot
deriving DecidableEq, Repr

instance : Inhabited LayerSlot := ⟨.multi []⟩

/-- `Layer::front` from `src/tag/layer.rs`. -/
def LayerSlot.front : LayerSlot → Option Nat
  | .single l => l
  | .multi l => l.head?

/-- `Layer::back` from `src/tag/layer.rs`. -/
def LayerSlot.back : LayerSlot → Option Nat
  | .single l => l
  | .multi l => l.getLast?

/-- `Layer::push_front` from `src/tag/layer.rs`: on a `Single` slot the result
is `(0, layer.replace(client))` — the previous occupant is returned; on a
`Multi` slot the client is pushed to the front (the returned arena handle is
modelled as `0`, see the `Stack` convention in the header). -/
def LayerSlot.push_front (s : LayerSlot) (client : Nat) : LayerSlot × (Nat × Option Nat) :=
  match s with
  | .single l => (.single (some client), (0, l))
  | .multi l => (.multi (client :: l), (0, none))

/-- `Layer::push_back` from `src/tag/layer.rs`. -/
def LayerSlot.push_back (s : LayerSlot) (client : Nat) : LayerSlot × (Nat × Option Nat) :=
  match s with
  | .single l => (.single (some client), (0, l))
  | .multi l => (.multi (l ++ [client]), (0, none))

/-- `Layer::remove` from `src/tag/layer.rs`.  Removal is by stored handle in
the source; with the list model the handle denotes the unique occurrence of
the client index, so the removal is by value. -/
def LayerSlot.removeClient (s : LayerSlot) (client : Nat) : LayerSlot :=
  match s with
  | .single _ => .single none
  | .multi l => .multi (l.erase client)

/-- `SetArg<T>` from `src/connections.rs`. -/
structure SetArg (T : Type) where
  val : T
  toggle : Bool
deriving DecidableEq, Repr

/-- `SetArg::apply_arg` from `src/connections.rs`, returning the new value and
whether anything changed. -/
def SetArg.apply_arg {T : Type} [DecidableEq T] (s : SetArg T) (arg : T) (last : T) :
    T × Bool :=
  if arg ≠ s.val then (s.val, true)
  else if s.toggle ∧ last ≠ s.val then (last, true)
  else (arg, false)

/-- `SetArg<bool>::apply` from `src/connections.rs`. -/
def SetArg.apply (s : SetArg Bool) (arg : Bool) : Bool × Bool :=
  if arg ≠ s.val then (s.val, true)
  else if s.toggle then (xor arg true, true)
  else (arg, false)

end CWM

namespace CWM

/-- `NodeInfo` from `src/tag/node.rs` (ratio as exact rational). -/
structure NodeInfo where
  split : Split
  ratio : ℚ
  first_child : Nat
  second_child : Nat
deriving DecidableEq, Repr

/-- `NodeInfo::get_child` from `src/tag/node.rs`. -/
def NodeInfo.get_child (ni : NodeInfo) (first : Bool) : Nat :=
  if first then ni.first_child else ni.second_child

/-- `LeafInfo` from `src/tag/node.rs`. -/
structure LeafInfo where
  floating : Rect
  min_size : Int × Int
  max_size : Int × Int
  client : Nat
deriving DecidableEq, Repr

/-- `NodeContents` from `src/tag/node.rs`. -/
inductive NodeContents where
  | node : NodeInfo → NodeContents
  | leaf : LeafInfo → NodeContents
  | empty : NodeContents
deriving DecidableEq, Repr

/-- `Node` from `src/tag/node.rs`. -/
structure Node where
  parent : Option (Nat × Bool)
  absent : Bool
  rect : Rect
  info : NodeContents
deriving DecidableEq, Repr

instance : Inhabited Node := ⟨⟨none, false, default, .empty⟩⟩

/-- `Client` from `src/tag/client.rs`.  Fields that are only read by display
calls (`name`, `class`, `border_width`, `protocols`, `ignore_unmaps`, …) are
omitted; `stack_pos`/`layer_pos` handles follow the list model of `Stack`
(the handle component is always 0, removal is by value). -/
structure Client where
  layer : StackLayer
  last_layer : StackLayer
  node : Nat
  stack_pos : Nat
  layer_pos : Nat × Nat
  flags : ClientFlags
  win : Nat
  frame : Nat
deriving DecidableEq, Repr

instance : Inhabited Client :=
  ⟨⟨.Normal, .Normal, 0, 0, (0, 0), default, 0, 0⟩⟩

/-- `Presel` from `src/connections.rs`. -/
structure Presel where
  side : Side
  amt : ℚ
deriving DecidableEq, Repr

/-- `SelectionContent` from `src/connections.rs`. -/
inductive SelectionContent where
  | presel : Nat → Nat → Presel → SelectionContent
  | node : Nat → Nat → SelectionContent
  | none : SelectionContent
deriving DecidableEq, Repr

/-- `Selection::presel` from `src/connections.rs`: consume (and clear) a
recorded preselection matching the given tag and node. -/
def SelectionContent.takePresel (s : SelectionContent) (tag node : Nat) :
    Option Presel × SelectionContent :=
  match s with
  | .presel t n p => if t = tag ∧ n = node then (some p, .none) else (Option.none, s)
  | _ => (Option.none, s)

/-- `Selection::hide` from `src/connections.rs`: clear the selection when it
refers to the given tag (if any) and node (if any). -/
def SelectionContent.hideSel (s : SelectionContent) (tag? node? : Option Nat) :
    SelectionContent :=
  match s with
  | .presel t n _ | .node t n =>
      if ((match tag? with | some x => decide (t = x) | Option.none => true) &&
          (match node? with | some x => decide (n = x) | Option.none => true)) then
        .none
      else s
  | .none => .none

/-- The model of `Aux` (`src/connections.rs`): the process-wide selection
overlay state plus the theme values the tag operations read.  Display
connection, streams, hooks and rules carry no model state. -/
structure AuxM where
  selection : SelectionContent
  gap : Int
  left_margin : Int
  right_margin : Int
  top_margin : Int
  bottom_margin : Int
deriving DecidableEq, Repr

/-- `Tag` from `src/tag/mod.rs`.  `HashSet` fields are modelled as lists with
set semantics; `VecDeque` (`hidden`) front is the list head; the focus stack
front is the list head. -/
structure Tag where
  id : Nat
  name : String
  nodes : List Node
  clients : List Client
  free_nodes : List Nat
  free_clients : List Nat
  focus_stack : List Nat
  layers : List LayerSlot
  size : Rect
  tiling_size : Rect
  focused : Option Nat
  monitor : Option Nat
  urgent : List Nat
  psuedo_urgent : List Nat
  hidden : List Nat
  monocle : Bool
  temp : Bool
  bg : Option Nat
deriving DecidableEq, Repr

/-- `Tag::default` from `src/tag/mod.rs`. -/
def Tag.default : Tag where
  id := 0
  name := ""
  nodes := [{ absent := false, info := .empty, parent := Option.none,
              rect := ⟨0, 0, 1920, 1080⟩ }]
  clients := []
  free_nodes := []
  free_clients := []
  focus_stack := []
  layers := [.multi [], .multi [], .single Option.none,
             .multi [], .multi [], .single Option.none,
             .multi [], .multi [], .single Option.none]
  size := ⟨0, 0, 1920, 1080⟩
  tiling_size := ⟨0, 0, 0, 0⟩
  focused := Option.none
  monitor := Option.none
  urgent := []
  psuedo_urgent := []
  hidden := []
  monocle := false
  temp := false
  bg := Option.none

/-- Indexing `self.nodes[i]` (out of range yields the default node). -/
def Tag.getNode (t : Tag) (i : Nat) : Node := t.nodes.getD i Inhabited.default

def Tag.setNode (t : Tag) (i : Nat) (n : Node) : Tag :=
  { t with nodes := t.nodes.set i n }

def Tag.modifyNode (t : Tag) (i : Nat) (f : Node → Node) : Tag :=
  t.setNode i (f (t.getNode i))

/-- Indexing `self.clients[i]`. -/
def Tag.getClient (t : Tag) (i : Nat) : Client := t.clients.getD i Inhabited.default

def Tag.setClient (t : Tag) (i : Nat) (c : Client) : Tag :=
  { t with clients := t.clients.set i c }

def Tag.modifyClient (t : Tag) (i : Nat) (f : Client → Client) : Tag :=
  t.setClient i (f (t.getClient i))

/-- Indexing `self.layers[i]`. -/
def Tag.getSlot (t : Tag) (i : Nat) : LayerSlot := t.layers.getD i Inhabited.default

def Tag.setSlot (t : Tag) (i : Nat) (s : LayerSlot) : Tag :=
  { t with layers := t.layers.set i s }

/-- `Tag::apply_pos_size` from `src/tag/client.rs` issues only
`configure_window` calls; it is the identity on the model state. -/
def Tag.apply_pos_size (t : Tag) : Tag := t

end CWM

namespace CWM

/-- `Tag::resize_node` from `src/tag/node.rs`.  The queue is the `to_process`
vector used as a stack (head = top); the source pushes `_child2` then
`_child1`, so `_child1` is processed first.  Writes only `rect` fields. -/
def Tag.resize_node (t : Tag) (gap : Int) (node : Nat) (to_process : List Nat)
    (force_process : Bool) : Tag × List Nat :=
  match (t.getNode node).info with
  | .node info =>
      let c1 := info.first_child
      let c2 := info.second_child
      if t.monocle then
        (((t.modifyNode c1 fun n => { n with rect := t.tiling_size }).modifyNode c2
            fun n => { n with rect := t.tiling_size }),
         c1 :: c2 :: to_process)
      else
        match (t.getNode c1).absent, (t.getNode c2).absent with
        | true, false =>
            (t.modifyNode c2 fun n => { n with rect := (t.getNode node).rect },
             if force_process then c1 :: c2 :: to_process else c2 :: to_process)
        | false, true =>
            (t.modifyNode c1 fun n => { n with rect := (t.getNode node).rect },
             if force_process then c2 :: c1 :: to_process else c1 :: to_process)
        | false, false =>
            let rs := (t.getNode node).rect.splitRect info.split info.ratio gap
            ((t.modifyNode c1 fun n => { n with rect := rs.1 }).modifyNode c2
               fun n => { n with rect := rs.2 },
             c1 :: c2 :: to_process)
        | true, true => (t, to_process)
  | _ => (t, to_process)

/-- The `while !q.is_empty()` rect-recomputation loop that appears verbatim in
`propagate_absent`, `resize_tiled` and `resize_client` (`src/tag/node.rs`):
pop a node; inner nodes go through `resize_node`, non-absent leaves apply
their rect to the client (display-only).  Fuel-indexed. -/
def Tag.processQueue (t : Tag) (gap : Int) (q : List Nat) : Nat → Tag
  | 0 => t
  | fuel + 1 =>
    match q with
    | [] => t
    | n :: rest =>
      match (t.getNode n).info with
      | .node _ =>
          let tq := t.resize_node gap n rest false
          tq.1.processQueue gap tq.2 fuel
      | .leaf _ => t.apply_pos_size.processQueue gap rest fuel
      | .empty => t.processQueue gap rest fuel

/-- The upward walk of `Tag::propagate_absent` from `src/tag/node.rs`:
starting at a node, recompute each inner node's `absent` from its children,
walking to the parent while the value changes; returns the state and the last
node visited (`prev_parent`). -/
def Tag.propagateUp (t : Tag) (p : Nat) : Nat → Tag × Nat
  | 0 => (t, p)
  | fuel + 1 =>
    match (t.getNode p).info with
    | .node ni =>
        let absent := (t.getNode ni.first_child).absent && (t.getNode ni.second_child).absent
        if (t.getNode p).absent ≠ absent then
          let t1 := t.modifyNode p fun n => { n with absent := absent }
          match (t.getNode p).parent with
          | some pr => t1.propagateUp pr.1 fuel
          | none => (t1, p)
        else (t, p)
    | _ => (t, p)

/-- `Tag::propagate_absent` from `src/tag/node.rs`: the upward walk followed
by the downward rect recomputation from the stopping point. -/
def Tag.propagate_absent (t : Tag) (gap : Int) (node : Nat) (fuel : Nat) : Tag :=
  let tp := t.propagateUp node fuel
  tp.1.processQueue gap [tp.2] fuel

/-- `Tag::add_node` from `src/tag/node.rs`: reuse a free slot or append. -/
def Tag.add_node (t : Tag) (n : Node) : Tag × Nat :=
  match t.free_nodes with
  | idx :: rest => ({ t with nodes := t.nodes.set idx n, free_nodes := rest }, idx)
  | [] => ({ t with nodes := t.nodes ++ [n] }, t.nodes.length)

/-- `Tag::split_leaf` from `src/tag/node.rs`.  `aux` carries the selection
overlay (a matching presel is consumed) and the theme gap.  The final
`apply_pos_size` of a relocated leaf is display-only. -/
def Tag.split_leaf (aux : AuxM) (t : Tag) (leaf_idx : Nat) (absent : Bool) (idx : Nat)
    (info : NodeContents) (fuel : Nat) : AuxM × Tag :=
  let pr := aux.selection.takePresel t.id leaf_idx
  let aux := { aux with selection := pr.2 }
  let sf : (Split × Bool) × ℚ :=
    match pr.1 with
    | Option.none =>
        let rect := (t.getNode leaf_idx).rect
        ((if rect.width > rect.height then .Vertical else .Horizontal, false), 1 / 2)
    | some presel => (presel.side.get_split, presel.amt)
  let split := sf.1.1
  let first := sf.1.2
  let ratio := sf.2
  let leaf := t.getNode leaf_idx
  let node1 : Node := { parent := some (leaf_idx, !first), rect := t.tiling_size,
                        absent := leaf.absent, info := leaf.info }
  let node2 : Node := { parent := some (leaf_idx, first), rect := t.tiling_size,
                        absent := absent, info := info }
  let leaf_absent := leaf.absent
  let ta := t.add_node node1
  let first_child := ta.2
  let tb := ta.1.add_node node2
  let second_child := tb.2
  let t := tb.1
  let idx2 : Option Nat :=
    match (t.getNode leaf_idx).info with
    | .leaf l => some l.client
    | _ => Option.none
  let t := match idx2 with
    | some c => t.modifyClient c fun cl => { cl with node := first_child }
    | Option.none => t
  let t := t.modifyNode leaf_idx fun n =>
    { n with info := .node {
        split := split,
        ratio := ratio,
        first_child := if first then second_child else first_child,
        second_child := if first then first_child else second_child } }
  let t := t.modifyClient idx fun cl => { cl with node := second_child }
  let t :=
    if leaf_absent ∧ !absent then t.propagate_absent aux.gap leaf_idx fuel
    else if !(t.monocle || (leaf_absent && absent)) then
      (t.resize_node aux.gap leaf_idx [] false).1
    else t
  (aux, if !leaf_absent ∧ idx2.isSome then t.apply_pos_size else t)

/-- `Tag::resize_tiled` from `src/tag/node.rs`: optionally store a new rect at
`node`, then run the recomputation loop (which starts from node `0`). -/
def Tag.resize_tiled (t : Tag) (gap : Int) (node : Nat) (size : Option Rect)
    (fuel : Nat) : Tag :=
  let t := match size with
    | some s => t.modifyNode node fun n => { n with rect := s }
    | Option.none => t
  t.processQueue gap [0] fuel

/-- `Tag::set_absent` from `src/tag/node.rs`: write the client's node absent
flag if it differs, propagate from the parent, and recompute rects when the
node became present. -/
def Tag.set_absent (t : Tag) (gap : Int) (client : Nat) (absent : Bool)
    (fuel : Nat) : Tag :=
  let nidx := (t.getClient client).node
  let changedParent : Option Nat :=
    if (t.getNode nidx).absent ≠ absent then (t.getNode nidx).parent.map (·.1)
    else Option.none
  let t :=
    if (t.getNode nidx).absent ≠ absent then
      t.modifyNode nidx fun n => { n with absent := absent }
    else t
  let t := match changedParent with
    | some p => t.propagate_absent gap p fuel
    | Option.none => t
  if !absent then t.resize_tiled gap (t.getClient client).node Option.none fuel else t

/-- `Tag::remove_node` from `src/tag/node.rs`: free the leaf, copy the
sibling's contents and absent flag into the parent slot, rewire grandchildren
or the surviving client, then recompute rects and propagate absent from the
parent slot. -/
def Tag.remove_node (t : Tag) (gap : Int) (node : Nat) (fuel : Nat) : Tag :=
  let parent := (t.getNode node).parent
  let t := t.modifyNode node fun n => { n with info := .empty }
  let t := { t with free_nodes := node :: t.free_nodes }
  match parent with
  | Option.none => t
  | some (parent_, first) =>
    let infoAbs : Option (NodeContents × Bool) :=
      match (t.getNode parent_).info with
      | .node ni =>
          some ((t.getNode (ni.get_child (!first))).info,
                (t.getNode (ni.get_child (!first))).absent)
      | _ => Option.none
    let t := match (t.getNode parent_).info with
      | .node ni => { t with free_nodes := ni.get_child (!first) :: t.free_nodes }
      | _ => t
    -- `self.nodes[*self.free_nodes.last().unwrap()].info = Empty`
    let t := match t.free_nodes with
      | top :: _ => t.modifyNode top fun n => { n with info := .empty }
      | [] => t
    let t := match infoAbs with
      | some ia => t.modifyNode parent_ fun n =>
          { n with info := ia.1, absent := ia.2 }
      | Option.none => t.modifyNode parent_ fun n => { n with info := .empty }
    let t := match (t.getNode parent_).info with
      | .leaf l => t.modifyClient l.client fun cl => { cl with node := parent_ }
      | .node ni =>
          (t.modifyNode ni.first_child fun n => { n with parent := some (parent_, true) }
            ).modifyNode ni.second_child fun n => { n with parent := some (parent_, false) }
      | .empty => t
    let t := t.resize_tiled gap parent_ Option.none fuel
    t.propagate_absent gap parent_ fuel

/-- The matching test of `Tag::get_split_parent` from `src/tag/node.rs`: the
candidate is an inner node whose split matches the side's orientation and
whose rect extends strictly past the subject rect on that side. -/
def splitParentMatches (parent : Node) (dir : Side) (node_rect : Rect) : Bool :=
  match parent.info, dir with
  | .node ni, .Left => ni.split = .Vertical && parent.rect.x < node_rect.x
  | .node ni, .Right =>
      ni.split = .Vertical && parent.rect.x + parent.rect.width > node_rect.x + node_rect.width
  | .node ni, .Top => ni.split = .Horizontal && parent.rect.y < node_rect.y
  | .node ni, .Bottom =>
      ni.split = .Horizontal &&
        parent.rect.y + parent.rect.height > node_rect.y + node_rect.height
  | _, _ => false

/-- The upward walk of `Tag::get_split_parent`, fuel-indexed; `i` counts the
levels traversed before the match (the returned "depth"). -/
def Tag.gspGo (t : Tag) (node_rect : Rect) (dir : Side) :
    Option (Nat × Bool) → Nat → Nat → Option (Nat × Bool) × Nat
  | Option.none, i, _ => (Option.none, i)
  | some pb, i, 0 => (some pb, i)
  | some (p, b), i, fuel + 1 =>
      if splitParentMatches (t.getNode p) dir node_rect then (some (p, b), i)
      else t.gspGo node_rect dir (t.getNode p).parent (i + 1) fuel

/-- `Tag::get_split_parent` from `src/tag/node.rs`. -/
def Tag.get_split_parent (t : Tag) (node : Nat) (split_dir : Side) (fuel : Nat) :
    Option (Nat × Bool) × Nat :=
  t.gspGo (t.getNode node).rect split_dir (t.getNode node).parent 0 fuel

/-- `Tag::rotate_nodes` from `src/tag/node.rs`: flip one inner node's split;
when the flip crosses orientations in the direction selected by `rev`, also
swap the children (rewiring their parent flags) and complement the ratio. -/
def Tag.rotate_nodes (t : Tag) (node c1 c2 : Nat) (rev : Bool) : Tag :=
  match (t.getNode node).info with
  | .node info =>
      match info.split with
      | .Horizontal =>
          if !rev then
            let t := t.modifyNode c1 fun n => { n with parent := some (node, false) }
            let t := t.modifyNode c2 fun n => { n with parent := some (node, true) }
            t.modifyNode node fun n =>
              { n with info := .node {
                  split := .Vertical,
                  ratio := 1 - info.ratio,
                  first_child := c2,
                  second_child := c1 } }
          else
            t.modifyNode node fun n =>
              { n with info := .node { info with split := .Vertical } }
      | .Vertical =>
          if rev then
            let t := t.modifyNode c1 fun n => { n with parent := some (node, false) }
            let t := t.modifyNode c2 fun n => { n with parent := some (node, true) }
            t.modifyNode node fun n =>
              { n with info := .node {
                  split := .Horizontal,
                  ratio := 1 - info.ratio,
                  first_child := c2,
                  second_child := c1 } }
          else
            t.modifyNode node fun n =>
              { n with info := .node { info with split := .Horizontal } }
  | _ => t

/-- The subtree traversal loop of `Tag::rotate` from `src/tag/node.rs`
(children are pushed before the node is rotated, so the pre-rotation children
are traversed; the stack pops `second_child` first). -/
def Tag.rotateLoop (t : Tag) (rev : Bool) (q : List Nat) : Nat → Tag
  | 0 => t
  | fuel + 1 =>
    match q with
    | [] => t
    | n :: rest =>
      match (t.getNode n).info with
      | .node info =>
          (t.rotate_nodes n info.first_child info.second_child rev).rotateLoop rev
            (info.second_child :: info.first_child :: rest) fuel
      | _ => t.rotateLoop rev rest fuel

/-- `Tag::rotate` from `src/tag/node.rs`: rotate the subtree, then
`resize_tiled`. -/
def Tag.rotate (t : Tag) (gap : Int) (node : Nat) (rev : Bool) (fuel : Nat) : Tag :=
  (t.rotateLoop rev [node] fuel).resize_tiled gap node Option.none fuel

end CWM

namespace CWM

/-- The initialisation of the recomputation queue `q` in the tiled branch of
`Tag::resize_client` (`src/tag/node.rs`): push the horizontal-direction split
parent when the vertical one is missing or was found strictly further up
(`depth1 > depth2`); push the vertical-direction split parent only when the
queue is still empty. -/
def resizeStartQueue (parent_h parent_v : Option (Nat × Bool)) (depth1 depth2 : Nat) :
    List Nat :=
  let q : List Nat := []
  let q := match parent_h with
    | some (p, _) =>
        if parent_v = Option.none ∨ depth1 > depth2 then q ++ [p] else q
    | Option.none => q
  match parent_v with
  | some (p, _) => if q = [] then q ++ [p] else q
  | Option.none => q

/-- `Tag::resize_client` from `src/tag/node.rs`.  The floating branch uses the
source's wrapping `u16` arithmetic (reduced mod `2^16`) and min/max clamping;
the tiled branch adjusts the two split parents' ratios with the
`[Side::MIN, Side::MAX]` clamp and recomputes rects from `resizeStartQueue`.
(`f32` division by a zero width is NaN/±inf in the source and `0` in `ℚ`; the
clamp keeps the ratio inside the range either way.) -/
def Tag.resize_client (t : Tag) (aux : AuxM) (client : Nat) (delta : Int × Int)
    (left top : Bool) (fuel : Nat) : Tag :=
  let fullscreen := (t.getClient client).flags.fullscreen
  let floating := (t.getClient client).flags.floating
  let node := (t.getClient client).node
  if fullscreen then t
  else if floating then
    match (t.getNode node).info with
    | .leaf leaf =>
        let flr := leaf.floating
        let flr :=
          if left then
            let width := max (min ((flr.width - delta.1).emod 65536) leaf.max_size.1)
              leaf.min_size.1
            { flr with x := flr.x - (width - flr.width), width := width }
          else
            let width := max (min ((flr.width + delta.1).emod 65536) leaf.max_size.1)
              leaf.min_size.1
            { flr with width := width }
        let flr :=
          if top then
            let height := max (min ((flr.height - delta.2).emod 65536) leaf.max_size.2)
              leaf.min_size.2
            { flr with y := flr.y - (height - flr.height), height := height }
          else
            let height := max (min ((flr.height + delta.2).emod 65536) leaf.max_size.2)
              leaf.min_size.2
            { flr with height := height }
        (t.modifyNode node fun n =>
          { n with info := .leaf { leaf with floating := flr } }).apply_pos_size
    | _ => t
  else
    let gh := t.get_split_parent node (if left then .Left else .Right) fuel
    let parent_h := gh.1
    let depth1 := gh.2
    let gv := t.get_split_parent node (if top then .Top else .Bottom) fuel
    let parent_v := gv.1
    let depth2 := gv.2
    let t := match parent_h with
      | some (p, _) =>
          t.modifyNode p fun n =>
            match n.info with
            | .node ni =>
                let diff : ℚ := (delta.1 : ℚ) / (n.rect.width : ℚ)
                let r2 := max (min (ni.ratio + diff) Side.MAX) Side.MIN
                { n with info := .node { ni with ratio := r2 } }
            | _ => n
      | Option.none => t
    let t := match parent_v with
      | some (p, _) =>
          t.modifyNode p fun n =>
            match n.info with
            | .node ni =>
                let diff : ℚ := (delta.2 : ℚ) / (n.rect.height : ℚ)
                let r2 := max (min (ni.ratio + diff) Side.MAX) Side.MIN
                { n with info := .node { ni with ratio := r2 } }
            | _ => n
      | Option.none => t
    -- `aux.resize_selection` at the end is display-only
    t.processQueue aux.gap (resizeStartQueue parent_h parent_v depth1 depth2) fuel

/-- The loop of `Tag::resize_all` from `src/tag/node.rs` (`force_process` is
true; leaves reposition their floating rect relative to the old tag size and
reapply geometry, which is display-only). -/
def Tag.resizeAllLoop (t : Tag) (gap : Int) (new_size : Rect) (q : List Nat) :
    Nat → Tag
  | 0 => t
  | fuel + 1 =>
    match q with
    | [] => t
    | n :: rest =>
      match (t.getNode n).info with
      | .node _ =>
          let tq := t.resize_node gap n rest true
          tq.1.resizeAllLoop gap new_size tq.2 fuel
      | .leaf _ =>
          let t := t.modifyNode n fun nd =>
            match nd.info with
            | .leaf l =>
                let fl := l.floating.reposition t.size new_size
                { nd with info := .leaf { l with floating := fl } }
            | _ => nd
          t.apply_pos_size.resizeAllLoop gap new_size rest fuel
      | .empty => t.resizeAllLoop gap new_size rest fuel

/-- `Tag::resize_all` from `src/tag/node.rs`. -/
def Tag.resize_all (t : Tag) (aux : AuxM) (available new_size : Rect) (fuel : Nat) :
    Tag :=
  let ts : Rect := ⟨available.x + aux.gap + aux.left_margin,
                    available.y + aux.gap + aux.top_margin,
                    available.width - (aux.gap * 2 + aux.right_margin + aux.left_margin),
                    available.height - (aux.gap * 2 + aux.bottom_margin + aux.top_margin)⟩
  let t := t.modifyNode 0 fun n => { n with rect := ts }
  let t := if ts ≠ t.tiling_size then { t with tiling_size := ts } else t
  t.resizeAllLoop aux.gap new_size [0] fuel

/-- `Tag::add_client` from `src/tag/node.rs`: allocate a client slot
(`pop_set` on the free set — Modelled from the spec: pop an arbitrary member,
here the head of the list), point the leaf payload at it, splice it into the
BSP (root if empty, else split the target leaf), and push it into the focus
stack unless hidden. -/
def Tag.add_client (aux : AuxM) (t : Tag) (client : Client) (parent : Option Nat)
    (info : NodeContents) (focus : Bool) (fuel : Nat) : AuxM × Tag × Nat :=
  let absent := client.flags.absent
  let hidden := client.flags.hidden
  let alloc : Nat × Tag :=
    match t.free_clients with
    | i :: rest => (i, { t with clients := t.clients.set i client, free_clients := rest })
    | [] => (t.clients.length, { t with clients := t.clients ++ [client] })
  let cidx := alloc.1
  let t := alloc.2
  let info := match info with
    | .leaf l => .leaf { l with client := cidx }
    | x => x
  let at2 : AuxM × Tag :=
    match (t.getNode 0).info with
    | .empty =>
        (aux, (t.modifyNode 0 fun n => { n with info := info, absent := absent }
          ).modifyClient cidx fun c => { c with node := 0 })
    | .leaf _ => t.split_leaf aux 0 absent cidx info fuel
    | .node _ =>
        let leafc := match parent with
          | some p => p
          | Option.none =>
              match t.focus_stack.head? with
              | some f => f
              | Option.none => (t.hidden.getLast?).getD 0
        t.split_leaf aux ((t.getClient leafc).node) absent cidx info fuel
  let aux := at2.1
  let t := at2.2
  let t :=
    if !hidden then
      let t := if focus then { t with focus_stack := cidx :: t.focus_stack }
               else { t with focus_stack := t.focus_stack ++ [cidx] }
      t.modifyClient cidx fun c => { c with stack_pos := 0 }
    else t
  (aux, t, cidx)

/-- `Tag::get_layer_bound_below` from `src/tag/layer.rs`: the back-most member
of the nearest non-empty slot at or above `layer`, as a frame window. -/
def Tag.get_layer_bound_below (t : Tag) (layer : Nat) : Option Nat :=
  if layer > Layer.SUBCOUNT * Layer.COUNT then Option.none
  else (((t.layers.drop layer).filterMap LayerSlot.back).head?).map
    fun x => (t.getClient x).frame

/-- `Tag::get_layer_bound_above` from `src/tag/layer.rs`. -/
def Tag.get_layer_bound_above (t : Tag) (layer : Nat) : Option Nat :=
  if layer > Layer.SUBCOUNT * Layer.COUNT then Option.none
  else ((((t.layers.take layer).reverse).filterMap LayerSlot.front).head?).map
    fun x => (t.getClient x).frame

/-- `Tag::set_absent` wrapper is above; `Tag::set_layer` from
`src/tag/layer.rs`: insert the client into the slot selected by its user layer
and flag-derived content layer (front if focused), record `layer_pos`, and if
a `Single` slot evicted a prior occupant: clear its fullscreen flag, re-run
`set_absent(false)` unless it is floating, and recursively restore it with
focus.  The X11 restacking (`get_layer_bound_*` + `configure_window`) is
display-only. -/
def Tag.set_layer (t : Tag) (gap : Int) (idx : Nat) (focus : Bool) : Nat → Tag
  | 0 => t
  | fuel + 1 =>
    let client := t.getClient idx
    let layer := client.layer.get + client.flags.get_layer
    let ps := if focus then (t.getSlot layer).push_front idx
              else (t.getSlot layer).push_back idx
    let t := t.setSlot layer ps.1
    let t := t.modifyClient idx fun c => { c with layer_pos := (layer, ps.2.1) }
    match ps.2.2 with
    | some oidx =>
        let t := t.modifyClient oidx fun c =>
          { c with flags := { c.flags with fullscreen := false } }
        let t := if !(t.getClient oidx).flags.floating then
            t.set_absent gap oidx false fuel
          else t
        t.set_layer gap oidx true fuel
    | Option.none => t

/-- `Tag::switch_layer` from `src/tag/layer.rs`: remove from the current slot,
update absent-state on a tiling/non-tiling transition, then `set_layer` with
focus. -/
def Tag.switch_layer (t : Tag) (gap : Int) (idx : Nat) (fuel : Nat) : Tag :=
  let client := t.getClient idx
  let prev_layer := client.layer_pos.1
  let t := t.setSlot prev_layer ((t.getSlot prev_layer).removeClient idx)
  let t :=
    match decide (prev_layer % Layer.COUNT = Layer.TILING),
          decide (client.flags.get_layer % Layer.COUNT = Layer.TILING) with
    | false, true => t.set_absent gap idx false fuel
    | true, false => t.set_absent gap idx true fuel
    | _, _ => t
  t.set_layer gap idx true fuel

/-- `Tag::focus_client` from `src/tag/client.rs`: no-op when already focused
or hidden; otherwise move the client to the front of the focus stack, record
it as focused and clear its pseudo-urgent state (borders, input focus and
hooks are display-only). -/
def Tag.focus_client (t : Tag) (idx : Nat) : Tag :=
  if t.focused = some idx then t
  else if (t.getClient idx).flags.hidden then t
  else
    let t := { t with focus_stack := t.focus_stack.erase idx, focused := some idx }
    let t := { t with focus_stack := idx :: t.focus_stack }
    let t := t.modifyClient idx fun c =>
      { c with stack_pos := 0, flags := { c.flags with psuedoUrgent := false } }
    { t with psuedo_urgent := t.psuedo_urgent.erase idx }

/-- `Tag::set_focus` from `src/tag/client.rs`: focus the front of the focus
stack, or clear the focus (POINTER_ROOT is display-only). -/
def Tag.set_focus (t : Tag) : Tag :=
  match t.focus_stack.head? with
  | some c => t.focus_client c
  | Option.none => { t with focused := Option.none }

/-- `Tag::unset_focus` from `src/tag/client.rs`. -/
def Tag.unset_focus (t : Tag) : Tag := { t with focused := Option.none }

/-- `Tag::set_fullscreen` from `src/tag/client.rs`. -/
def Tag.set_fullscreen (t : Tag) (gap : Int) (client : Nat) (arg : SetArg Bool)
    (fuel : Nat) : Tag :=
  let ap := arg.apply (t.getClient client).flags.fullscreen
  if ap.2 then
    let t := t.modifyClient client fun c =>
      { c with flags := { c.flags with fullscreen := ap.1 } }
    t.switch_layer gap client fuel
  else t

/-- `Tag::set_floating` from `src/tag/client.rs`. -/
def Tag.set_floating (t : Tag) (gap : Int) (client : Nat) (arg : SetArg Bool)
    (fuel : Nat) : Tag :=
  let ap := arg.apply (t.getClient client).flags.floating
  if ap.2 then
    let t := t.modifyClient client fun c =>
      { c with flags := { c.flags with floating := ap.1 } }
    t.switch_layer gap client fuel
  else t

/-- `Tag::set_hidden` from `src/tag/client.rs`.  `Client::hide` unmaps and
sets `WM_STATE` (display-only) and clears a selection pointing at the hidden
client's node; `Client::show` is display-only. -/
def Tag.set_hidden (aux : AuxM) (t : Tag) (client_ : Nat) (arg : SetArg Bool)
    (fuel : Nat) : AuxM × Tag :=
  let ap := arg.apply (t.getClient client_).flags.hidden
  if ap.2 then
    let t := t.modifyClient client_ fun c =>
      { c with flags := { c.flags with hidden := ap.1 } }
    if (t.getClient client_).flags.hidden then
      let aux := { aux with selection :=
        aux.selection.hideSel (some t.id) (some (t.getClient client_).node) }
      let t := { t with focus_stack := t.focus_stack.erase client_ }
      let t := t.set_focus
      let t := { t with hidden := t.hidden ++ [client_] }
      (aux, t.set_absent aux.gap client_ true fuel)
    else
      let t := { t with focus_stack := t.focus_stack ++ [client_] }
      let t := t.modifyClient client_ fun c => { c with stack_pos := 0 }
      let absent := (t.getClient client_).flags.absent
      let t := { t with hidden := t.hidden.filter fun x => x ≠ client_ }
      (aux, t.set_absent aux.gap client_ absent fuel)
  else (aux, t)

/-- `Tag::set_stack_layer` from `src/tag/client.rs`: apply the `SetArg` to the
user layer (toggling back to `last_layer`), remember the old layer as
`last_layer` on change, and `switch_layer`. -/
def Tag.set_stack_layer (t : Tag) (gap : Int) (client : Nat)
    (arg : SetArg StackLayer) (fuel : Nat) : Tag :=
  let layer := (t.getClient client).layer
  let last := (t.getClient client).last_layer
  let ap := arg.apply_arg layer last
  if ap.2 then
    let t := t.modifyClient client fun c =>
      { c with layer := ap.1, last_layer := layer }
    t.switch_layer gap client fuel
  else t

/-- `Tag::cycle` from `src/tag/client.rs`: with at least two stacked clients,
move the back-most (`rev`) or front-most (`!rev`) to the other end, raise the
new front in its layer, and focus it. -/
def Tag.cycle (t : Tag) (gap : Int) (rev : Bool) (fuel : Nat) : Tag :=
  if t.focus_stack.length ≥ 2 then
    let client_ := if rev then (t.focus_stack.getLast?).getD 0
                   else (t.focus_stack.head?).getD 0
    let t := { t with focus_stack := t.focus_stack.erase client_ }
    let t := if rev then { t with focus_stack := client_ :: t.focus_stack }
             else { t with focus_stack := t.focus_stack ++ [client_] }
    let t := t.modifyClient client_ fun c => { c with stack_pos := 0 }
    let t := t.set_layer gap ((t.focus_stack.head?).getD 0) true fuel
    t.set_focus
  else t

end CWM

namespace CWM

/-- The absent invariant of spec §8 / §3: every non-root inner node is absent
iff both children are absent; every leaf is absent iff its client's flags make
it absent (floating, fullscreen or hidden). -/
def Tag.absentInvariant (t : Tag) : Bool :=
  (List.range t.nodes.length).all fun i =>
    match (t.getNode i).info with
    | .node ni =>
        if (t.getNode i).parent.isSome then
          (t.getNode i).absent
            == ((t.getNode ni.first_child).absent && (t.getNode ni.second_child).absent)
        else true
    | .leaf l => (t.getNode i).absent == (t.getClient l.client).flags.absent
    | .empty => true

/-- A tiled client (no flags set). -/
def tiledFlags : ClientFlags := ⟨false, false, false, false, false, false⟩

/-- A floating client. -/
def floatingFlags : ClientFlags := ⟨false, false, true, false, false, false⟩

/-- A fresh client record as `manage_client` (`src/tag/client.rs`) builds it:
`node = 0`, `layer = last_layer = Normal`, positions zeroed. -/
def mkClient (flags : ClientFlags) (win : Nat) : Client :=
  { layer := .Normal, last_layer := .Normal, node := 0, stack_pos := 0,
    layer_pos := (0, 0), flags := flags, win := win, frame := win + 100 }

/-- An `Aux` with no selection and zero gap/margins. -/
def auxPlain : AuxM :=
  { selection := .none, gap := 0, left_margin := 0, right_margin := 0,
    top_margin := 0, bottom_margin := 0 }

/-- The `NodeContents::leaf` payload `manage_client` passes to `add_client`
(the `client` field is overwritten by `add_client`). -/
def leafPayload : NodeContents :=
  .leaf { floating := ⟨0, 0, 100, 100⟩, min_size := (0, 0),
          max_size := (65535, 65535), client := 0 }

/-- Scenario for the absent invariant: client 0 tiled, then 1 floating, then 2
floating (splitting 1's leaf), then 3 tiled (splitting 2's leaf). -/
def c1t1 : Tag :=
  (Tag.add_client auxPlain Tag.default (mkClient tiledFlags 10) Option.none
    leafPayload true 20).2.1

def c1t2 : Tag :=
  (Tag.add_client auxPlain c1t1 (mkClient floatingFlags 11) Option.none
    leafPayload true 20).2.1

def c1t3 : Tag :=
  (Tag.add_client auxPlain c1t2 (mkClient floatingFlags 12) Option.none
    leafPayload true 20).2.1

def c1t4 : Tag :=
  (Tag.add_client auxPlain c1t3 (mkClient tiledFlags 13) Option.none
    leafPayload true 20).2.1

/-- Removing tiled client 3's leaf: its sibling (floating client 2's absent
leaf) is copied into the parent slot, whose absent flag flips to true, but
`propagate_absent` starts at that now-leaf slot and stops immediately. -/
def c1t5 : Tag := c1t4.remove_node 0 (c1t4.getClient 3).node 20

end CWM

namespace CWM

/-- C1: the absent invariant — for every non-root inner node `absent` iff both
children are absent, for every leaf `absent` iff its client is floating,
fullscreen or hidden — holds after each `add_client`/`split_leaf` step of the
scenario, but is broken by `remove_node` on client 3's leaf: the sibling's
`absent = true` is copied into the parent slot and `propagate_absent` starts
at (and immediately stops at) that slot, leaving the grandparent inner node
with `absent = false` and two absent children.  This contradicts the
invariant the spec requires after every tree mutation. -/
theorem C1_remove_node_breaks_absent_invariant :
    c1t1.absentInvariant = true ∧ c1t2.absentInvariant = true ∧
    c1t3.absentInvariant = true ∧ c1t4.absentInvariant = true ∧
    c1t5.absentInvariant = false := by
  refine ⟨by decide, by decide, by decide, by decide, by decide⟩

end CWM

namespace CWM

theorem getD_set_eq {α : Type _} (l : List α) (i : Nat) (v d : α) (h : i < l.length) :
    (l.set i v).getD i d = v := by
  simp [List.getD_eq_getElem?_getD, List.getElem?_set_self', List.getElem?_eq_getElem h]

theorem getD_set_ne {α : Type _} (l : List α) {i j : Nat} (v d : α) (h : i ≠ j) :
    (l.set i v).getD j d = l.getD j d := by
  simp [List.getD_eq_getElem?_getD, List.getElem?_set_ne h]

theorem getD_set_le {α : Type _} (l : List α) {i : Nat} (v d : α) (h : l.length ≤ i) :
    ∀ j, (l.set i v).getD j d = l.getD j d := by
  intro j
  rw [l.set_eq_of_length_le h]

/-- All fields except `nodes` unchanged, and the node count unchanged. -/
def NodesOnly (t u : Tag) : Prop :=
  u = { t with nodes := u.nodes } ∧ u.nodes.length = t.nodes.length

theorem NodesOnly.nrefl (t : Tag) : NodesOnly t t := ⟨rfl, rfl⟩

theorem NodesOnly.ntrans {t u v : Tag} (h1 : NodesOnly t u) (h2 : NodesOnly u v) :
    NodesOnly t v := by
  obtain ⟨e1, l1⟩ := h1
  obtain ⟨e2, l2⟩ := h2
  constructor
  · rw [e2, e1]
  · rw [l2, l1]

theorem NodesOnly.clients {t u : Tag} (h : NodesOnly t u) : u.clients = t.clients := by
  rw [h.1]

theorem NodesOnly.focus_stack {t u : Tag} (h : NodesOnly t u) :
    u.focus_stack = t.focus_stack := by
  rw [h.1]

theorem NodesOnly.layers {t u : Tag} (h : NodesOnly t u) : u.layers = t.layers := by
  rw [h.1]

theorem NodesOnly.focused {t u : Tag} (h : NodesOnly t u) : u.focused = t.focused := by
  rw [h.1]

theorem NodesOnly.hidden {t u : Tag} (h : NodesOnly t u) : u.hidden = t.hidden := by
  rw [h.1]

theorem NodesOnly.getClient {t u : Tag} (h : NodesOnly t u) (i : Nat) :
    u.getClient i = t.getClient i := by
  unfold Tag.getClient
  rw [h.clients]

theorem nodesOnly_modifyNode (t : Tag) (i : Nat) (f : Node → Node) :
    NodesOnly t (t.modifyNode i f) :=
  ⟨rfl, List.length_set ..⟩

/-- `NodesOnly`, and additionally every node keeps its `info` and `parent`
(only `rect`/`absent` may change). -/
def ShapeOnly (t u : Tag) : Prop :=
  NodesOnly t u ∧
    ∀ i, (u.getNode i).info = (t.getNode i).info ∧
      (u.getNode i).parent = (t.getNode i).parent

theorem ShapeOnly.srefl (t : Tag) : ShapeOnly t t :=
  ⟨NodesOnly.nrefl t, fun _ => ⟨rfl, rfl⟩⟩

theorem ShapeOnly.strans {t u v : Tag} (h1 : ShapeOnly t u) (h2 : ShapeOnly u v) :
    ShapeOnly t v :=
  ⟨h1.1.ntrans h2.1, fun i =>
    ⟨(h2.2 i).1.trans (h1.2 i).1, (h2.2 i).2.trans (h1.2 i).2⟩⟩

theorem shapeOnly_modifyNode_rect (t : Tag) (i : Nat) (f : Node → Node)
    (hf : ∀ n, (f n).info = n.info ∧ (f n).parent = n.parent) :
    ShapeOnly t (t.modifyNode i f) := by
  refine ⟨nodesOnly_modifyNode t i f, fun j => ?_⟩
  unfold Tag.modifyNode Tag.setNode Tag.getNode
  by_cases hij : i = j
  · subst hij
    by_cases hi : i < t.nodes.length
    · rw [getD_set_eq _ _ _ _ hi]
      exact hf _
    · rw [getD_set_le _ _ _ (Nat.le_of_not_lt hi)]
      exact ⟨rfl, rfl⟩
  · rw [getD_set_ne _ _ _ hij]
    exact ⟨rfl, rfl⟩

theorem shapeOnly_setRect (t : Tag) (i : Nat) (r : Rect) :
    ShapeOnly t (t.modifyNode i fun n => { n with rect := r }) :=
  shapeOnly_modifyNode_rect t i _ fun _ => ⟨rfl, rfl⟩

theorem shapeOnly_setAbsentFlag (t : Tag) (i : Nat) (a : Bool) :
    ShapeOnly t (t.modifyNode i fun n => { n with absent := a }) :=
  shapeOnly_modifyNode_rect t i _ fun _ => ⟨rfl, rfl⟩

theorem shapeOnly_resize_node (t : Tag) (gap : Int) (n : Nat) (q : List Nat)
    (b : Bool) : ShapeOnly t (t.resize_node gap n q b).1 := by
  unfold Tag.resize_node
  split
  · dsimp only
    split
    · exact (shapeOnly_setRect _ _ _).strans (shapeOnly_setRect _ _ _)
    · split
      · exact shapeOnly_setRect _ _ _
      · exact shapeOnly_setRect _ _ _
      · exact (shapeOnly_setRect _ _ _).strans (shapeOnly_setRect _ _ _)
      · exact ShapeOnly.srefl t
  · exact ShapeOnly.srefl t

theorem shapeOnly_processQueue (gap : Int) :
    ∀ (fuel : Nat) (t : Tag) (q : List Nat), ShapeOnly t (t.processQueue gap q fuel) := by
  intro fuel
  induction fuel with
  | zero => intro t q; exact ShapeOnly.srefl t
  | succ fuel ih =>
    intro t q
    unfold Tag.processQueue
    match q with
    | [] => exact ShapeOnly.srefl t
    | n :: rest =>
      simp only
      split
      · exact (shapeOnly_resize_node t gap n rest false).strans (ih _ _)
      · exact ih _ _
      · exact ih _ _

theorem shapeOnly_propagateUp :
    ∀ (fuel : Nat) (t : Tag) (p : Nat), ShapeOnly t (t.propagateUp p fuel).1 := by
  intro fuel
  induction fuel with
  | zero => intro t p; exact ShapeOnly.srefl t
  | succ fuel ih =>
    intro t p
    unfold Tag.propagateUp
    split
    · dsimp only
      split
      · split
        · exact (shapeOnly_setAbsentFlag _ _ _).strans (ih _ _)
        · exact shapeOnly_setAbsentFlag _ _ _
      · exact ShapeOnly.srefl t
    · exact ShapeOnly.srefl t

theorem shapeOnly_propagate_absent (t : Tag) (gap : Int) (node fuel : Nat) :
    ShapeOnly t (t.propagate_absent gap node fuel) :=
  (shapeOnly_propagateUp fuel t node).strans (shapeOnly_processQueue gap fuel _ _)

theorem shapeOnly_resize_tiled_none (t : Tag) (gap : Int) (node fuel : Nat) :
    ShapeOnly t (t.resize_tiled gap node Option.none fuel) :=
  shapeOnly_processQueue gap fuel t [0]

theorem shapeOnly_set_absent (t : Tag) (gap : Int) (client : Nat) (absent : Bool)
    (fuel : Nat) : ShapeOnly t (t.set_absent gap client absent fuel) := by
  unfold Tag.set_absent
  dsimp only
  have base : ∀ w : Tag, ShapeOnly t w →
      ShapeOnly t (if !absent then
        w.resize_tiled gap (w.getClient client).node Option.none fuel else w) := by
    intro w hw
    split
    · exact hw.strans (shapeOnly_resize_tiled_none ..)
    · exact hw
  apply base
  split
  · split
    · exact (shapeOnly_setAbsentFlag _ _ _).strans (shapeOnly_propagate_absent ..)
    · exact shapeOnly_propagate_absent ..
  · split
    · exact shapeOnly_setAbsentFlag _ _ _
    · exact ShapeOnly.srefl t

end CWM

namespace CWM

theorem getClient_modifyClient_self (t : Tag) (j : Nat) (f : Client → Client)
    (h : j < t.clients.length) :
    (t.modifyClient j f).getClient j = f (t.getClient j) := by
  unfold Tag.modifyClient Tag.setClient Tag.getClient
  exact getD_set_eq _ _ _ _ h

theorem getClient_modifyClient_ne (t : Tag) {i j : Nat} (f : Client → Client)
    (h : j ≠ i) : (t.modifyClient j f).getClient i = t.getClient i := by
  unfold Tag.modifyClient Tag.setClient Tag.getClient
  exact getD_set_ne _ _ _ h

/-- Fields that the layer-table operations never change: each client's user
layer, stored last layer and hidden flag, the client count, the focus stack,
the focused client and the hidden queue. -/
structure LayerFrame (t u : Tag) : Prop where
  len : u.clients.length = t.clients.length
  layerEq : ∀ i, (u.getClient i).layer = (t.getClient i).layer
  lastEq : ∀ i, (u.getClient i).last_layer = (t.getClient i).last_layer
  hiddenFlag : ∀ i, (u.getClient i).flags.hidden = (t.getClient i).flags.hidden
  stack : u.focus_stack = t.focus_stack
  focusedEq : u.focused = t.focused
  hiddenQ : u.hidden = t.hidden

theorem LayerFrame.lrefl (t : Tag) : LayerFrame t t :=
  ⟨rfl, fun _ => rfl, fun _ => rfl, fun _ => rfl, rfl, rfl, rfl⟩

theorem LayerFrame.ltrans {t u v : Tag} (h1 : LayerFrame t u) (h2 : LayerFrame u v) :
    LayerFrame t v :=
  ⟨h2.len.trans h1.len,
   fun i => (h2.layerEq i).trans (h1.layerEq i),
   fun i => (h2.lastEq i).trans (h1.lastEq i),
   fun i => (h2.hiddenFlag i).trans (h1.hiddenFlag i),
   h2.stack.trans h1.stack, h2.focusedEq.trans h1.focusedEq,
   h2.hiddenQ.trans h1.hiddenQ⟩

theorem layerFrame_of_clients_eq {t u : Tag} (hc : u.clients = t.clients)
    (hs : u.focus_stack = t.focus_stack) (hf : u.focused = t.focused)
    (hh : u.hidden = t.hidden) : LayerFrame t u := by
  refine ⟨by rw [hc], fun i => ?_, fun i => ?_, fun i => ?_, hs, hf, hh⟩ <;>
    unfold Tag.getClient <;> rw [hc]

theorem layerFrame_of_nodesOnly {t u : Tag} (h : NodesOnly t u) : LayerFrame t u :=
  layerFrame_of_clients_eq h.clients h.focus_stack h.focused h.hidden

theorem layerFrame_setSlot (t : Tag) (i : Nat) (s : LayerSlot) :
    LayerFrame t (t.setSlot i s) :=
  layerFrame_of_clients_eq rfl rfl rfl rfl

theorem layerFrame_modifyClient (t : Tag) (j : Nat) (f : Client → Client)
    (hf : ∀ c, (f c).layer = c.layer ∧ (f c).last_layer = c.last_layer ∧
      (f c).flags.hidden = c.flags.hidden) :
    LayerFrame t (t.modifyClient j f) := by
  have hlen : (t.modifyClient j f).clients.length = t.clients.length :=
    List.length_set ..
  refine ⟨hlen, fun i => ?_, fun i => ?_, fun i => ?_, rfl, rfl, rfl⟩ <;>
    (by_cases hji : j = i
     · subst hji
       by_cases hj : j < t.clients.length
       · rw [getClient_modifyClient_self t j f hj]
         first
           | exact (hf _).1
           | exact (hf _).2.1
           | exact (hf _).2.2
       · unfold Tag.modifyClient Tag.setClient Tag.getClient
         rw [getD_set_le _ _ _ (Nat.le_of_not_lt hj)]
     · rw [getClient_modifyClient_ne t f hji])

theorem layerFrame_set_layer_pos (t : Tag) (j : Nat) (lp : Nat × Nat) :
    LayerFrame t (t.modifyClient j fun c => { c with layer_pos := lp }) :=
  layerFrame_modifyClient t j _ fun _ => ⟨rfl, rfl, rfl⟩

theorem layerFrame_clear_fullscreen (t : Tag) (j : Nat) :
    LayerFrame t (t.modifyClient j fun c =>
      { c with flags := { c.flags with fullscreen := false } }) :=
  layerFrame_modifyClient t j _ fun _ => ⟨rfl, rfl, rfl⟩

theorem layerFrame_set_absent (t : Tag) (gap : Int) (c : Nat) (a : Bool)
    (fuel : Nat) : LayerFrame t (t.set_absent gap c a fuel) :=
  layerFrame_of_nodesOnly (shapeOnly_set_absent t gap c a fuel).1

theorem layerFrame_set_layer (gap : Int) :
    ∀ (fuel : Nat) (t : Tag) (idx : Nat) (focus : Bool),
      LayerFrame t (t.set_layer gap idx focus fuel) := by
  intro fuel
  induction fuel with
  | zero => intro t idx focus; exact LayerFrame.lrefl t
  | succ fuel ih =>
    intro t idx focus
    unfold Tag.set_layer
    dsimp only
    repeat' split
    all_goals
      first
      | exact (layerFrame_setSlot ..).ltrans (layerFrame_set_layer_pos ..)
      | (refine LayerFrame.ltrans ?_ (ih _ _ _)
         first
         | exact LayerFrame.ltrans (((layerFrame_setSlot ..).ltrans
             (layerFrame_set_layer_pos ..)).ltrans (layerFrame_clear_fullscreen ..))
             (layerFrame_set_absent ..)
         | exact ((layerFrame_setSlot ..).ltrans (layerFrame_set_layer_pos ..)).ltrans
             (layerFrame_clear_fullscreen ..))

theorem layerFrame_switch_layer (t : Tag) (gap : Int) (idx : Nat) (fuel : Nat) :
    LayerFrame t (t.switch_layer gap idx fuel) := by
  unfold Tag.switch_layer
  dsimp only
  refine LayerFrame.ltrans ?_ (layerFrame_set_layer ..)
  split
  · exact LayerFrame.ltrans (layerFrame_setSlot ..) (layerFrame_set_absent ..)
  · exact LayerFrame.ltrans (layerFrame_setSlot ..) (layerFrame_set_absent ..)
  · exact layerFrame_setSlot ..

end CWM

namespace CWM

theorem apply_arg_fst_of_not_changed {T : Type} [DecidableEq T] (s : SetArg T)
    (a l : T) (h : (s.apply_arg a l).2 = false) : (s.apply_arg a l).1 = a := by
  unfold SetArg.apply_arg at h ⊢
  split at h
  · cases h
  · split at h
    · cases h
    · split <;> simp_all

/-- The effect of one `set_stack_layer` on the target client's `layer` and
`last_layer` fields: the `SetArg` is applied to `layer`, and `last_layer`
receives the old layer exactly when something changed. -/
theorem set_stack_layer_effect (t : Tag) (gap : Int) (idx : Nat)
    (arg : SetArg StackLayer) (fuel : Nat) (h : idx < t.clients.length) :
    (((t.set_stack_layer gap idx arg fuel).getClient idx).layer =
        (arg.apply_arg (t.getClient idx).layer (t.getClient idx).last_layer).1) ∧
    (((t.set_stack_layer gap idx arg fuel).getClient idx).last_layer =
      if (arg.apply_arg (t.getClient idx).layer (t.getClient idx).last_layer).2
      then (t.getClient idx).layer else (t.getClient idx).last_layer) ∧
    ((t.set_stack_layer gap idx arg fuel).clients.length = t.clients.length) := by
  unfold Tag.set_stack_layer
  dsimp only
  split
  case isTrue hc =>
    refine ⟨?_, ?_, ?_⟩
    · rw [(layerFrame_switch_layer _ gap idx fuel).layerEq idx,
        getClient_modifyClient_self _ _ _ h]
    · rw [(layerFrame_switch_layer _ gap idx fuel).lastEq idx,
        getClient_modifyClient_self _ _ _ h]
    · rw [(layerFrame_switch_layer _ gap idx fuel).len]
      simp [Tag.modifyClient, Tag.setClient]
  case isFalse hc =>
    have hc2 : (arg.apply_arg (t.getClient idx).layer (t.getClient idx).last_layer).2
        = false := by
      revert hc
      cases (arg.apply_arg (t.getClient idx).layer (t.getClient idx).last_layer).2 <;>
        simp
    refine ⟨?_, ?_, rfl⟩
    · rw [apply_arg_fst_of_not_changed _ _ _ hc2]
    · simp [hc2]

/-- The starting state for the `SetArg` double-toggle counterexample: one
tiled client in the `Normal`/`Tiling` slot with `layer = last_layer = Normal`. -/
def c4t0 : Tag :=
  { Tag.default with
    clients := [{ mkClient tiledFlags 20 with layer_pos := (3, 0) }],
    layers := [.multi [], .multi [], .single Option.none,
               .multi [0], .multi [], .single Option.none,
               .multi [], .multi [], .single Option.none],
    focus_stack := [0] }

/-- C4 counterexample: applying `SetLayer (Above, toggle = true)` twice to a
client with `layer = last_layer = Normal` restores `layer` but leaves
`last_layer = Above` — the stored last value is not returned to its starting
value, contradicting the claim. -/
theorem C4_counterexample_last_layer_not_restored :
    ((((c4t0.set_stack_layer 0 0 ⟨.Above, true⟩ 5).set_stack_layer 0 0
        ⟨.Above, true⟩ 5).getClient 0).layer = (c4t0.getClient 0).layer) ∧
    ((((c4t0.set_stack_layer 0 0 ⟨.Above, true⟩ 5).set_stack_layer 0 0
        ⟨.Above, true⟩ 5).getClient 0).last_layer ≠ (c4t0.getClient 0).last_layer) := by
  decide

/-- C4 amended: applying `SetArg(x, toggle = true)` twice returns the targeted
field itself to its starting value — any boolean flag (fullscreen, floating,
hidden, via `SetArg::apply`), and the user layer (via `set_stack_layer`) —
but not every affected field: `set_stack_layer` restores the stored
`last_layer` only when the starting layer already equals `x`; otherwise
`last_layer` ends at `x`. -/
theorem C4_double_toggle_amended (t : Tag) (gap : Int) (idx : Nat) (x : StackLayer)
    (fuel fuel2 : Nat) (h : idx < t.clients.length) :
    (∀ y b : Bool, ((SetArg.mk y true).apply (((SetArg.mk y true).apply b).1)).1 = b) ∧
    ((((t.set_stack_layer gap idx ⟨x, true⟩ fuel).set_stack_layer gap idx ⟨x, true⟩
        fuel2).getClient idx).layer = (t.getClient idx).layer) ∧
    ((((t.set_stack_layer gap idx ⟨x, true⟩ fuel).set_stack_layer gap idx ⟨x, true⟩
        fuel2).getClient idx).last_layer =
      if (t.getClient idx).layer = x then (t.getClient idx).last_layer else x) := by
  refine ⟨by decide, ?_⟩
  obtain ⟨e1l, e1last, e1len⟩ := set_stack_layer_effect t gap idx ⟨x, true⟩ fuel h
  have h2 : idx < (t.set_stack_layer gap idx ⟨x, true⟩ fuel).clients.length := by
    rw [e1len]; exact h
  obtain ⟨e2l, e2last, _⟩ := set_stack_layer_effect _ gap idx ⟨x, true⟩ fuel2 h2
  rw [e2l, e2last, e1l, e1last]
  by_cases hax : (t.getClient idx).layer = x
  · by_cases hlx : (t.getClient idx).last_layer = x
    · simp [SetArg.apply_arg, hax, hlx]
    · simp [SetArg.apply_arg, hax, hlx]
  · by_cases hlx : (t.getClient idx).last_layer = x
    · simp [SetArg.apply_arg, hax, hlx]
    · simp [SetArg.apply_arg, hax, hlx]

end CWM

namespace CWM

theorem layerFrame_set_stack_pos (t : Tag) (j : Nat) :
    LayerFrame t (t.modifyClient j fun c => { c with stack_pos := 0 }) :=
  layerFrame_modifyClient t j _ fun _ => ⟨rfl, rfl, rfl⟩

theorem erase_getLast_of_nodup :
    ∀ (l : List Nat), l.Nodup → l ≠ [] → l.erase (l.getLast?.getD 0) = l.dropLast := by
  intro l
  induction l with
  | nil => intro _ h; cases h rfl
  | cons a rest ih =>
    intro hnd _
    match rest, ih with
    | [], _ => simp
    | b :: rest2, ih =>
      have hlast : (a :: b :: rest2).getLast? = (b :: rest2).getLast? := by
        rw [List.getLast?_cons_cons]
      rw [hlast]
      have hmem : ((b :: rest2).getLast?.getD 0) ∈ b :: rest2 := by
        apply List.mem_of_mem_getLast?
        have : ∃ x, (b :: rest2).getLast? = some x := by
          cases h : (b :: rest2).getLast? with
          | none => exact absurd (List.getLast?_eq_none_iff.mp h) (by simp)
          | some x => exact ⟨x, rfl⟩
        obtain ⟨x, hx⟩ := this
        rw [hx]
        rfl
      have hane : a ≠ (b :: rest2).getLast?.getD 0 := by
        intro he
        exact (List.nodup_cons.mp hnd).1 (he ▸ hmem)
      rw [List.erase_cons_tail (by simpa using hane)]
      rw [ih (List.nodup_cons.mp hnd).2 (by simp)]
      rfl

theorem focus_client_front (t : Tag) (f : Nat) (hhead : t.focus_stack.head? = some f)
    (hhid : (t.getClient f).flags.hidden = false) :
    (t.focus_client f).focus_stack = t.focus_stack ∧ (t.focus_client f).focused = some f := by
  unfold Tag.focus_client
  split
  case isTrue hfoc => exact ⟨rfl, hfoc.symm ▸ rfl⟩
  case isFalse hfoc =>
    rw [if_neg (by simp [hhid])]
    obtain ⟨rest, hrest⟩ : ∃ r, t.focus_stack = f :: r := by
      cases hfs : t.focus_stack with
      | nil => rw [hfs] at hhead; cases hhead
      | cons a r =>
        rw [hfs] at hhead
        simp at hhead
        subst hhead
        exact ⟨r, rfl⟩
    constructor
    · show f :: (t.focus_stack.erase f) = t.focus_stack
      rw [hrest, List.erase_cons_head]
    · rfl

theorem set_focus_front (t : Tag) (f : Nat) (hhead : t.focus_stack.head? = some f)
    (hhid : (t.getClient f).flags.hidden = false) :
    (t.set_focus).focus_stack = t.focus_stack ∧ (t.set_focus).focused = some f := by
  unfold Tag.set_focus
  rw [hhead]
  exact focus_client_front t f hhead hhid

end CWM

namespace CWM

theorem head_getD_mem (l : List Nat) (hne : l ≠ []) : l.head?.getD 0 ∈ l := by
  cases l with
  | nil => cases hne rfl
  | cons a r => simp

theorem head_eq_some_getD (l : List Nat) (hne : l ≠ []) :
    l.head? = some (l.head?.getD 0) := by
  cases l with
  | nil => cases hne rfl
  | cons a r => rfl

theorem erase_head_eq_tail (l : List Nat) : l.erase (l.head?.getD 0) = l.tail := by
  cases l with
  | nil => rfl
  | cons a r => simp [List.erase_cons_head]

theorem getLast_getD_mem (l : List Nat) (hne : l ≠ []) : l.getLast?.getD 0 ∈ l := by
  cases hg : l.getLast? with
  | none => exact absurd (List.getLast?_eq_none_iff.mp hg) hne
  | some x =>
      have hx : x ∈ l := List.mem_of_mem_getLast? (Option.mem_def.mpr hg)
      simpa using hx

/-- The trailing `set_layer` + `set_focus` of `Tag::cycle`: the focus stack is
untouched and the front becomes focused. -/
theorem set_layer_then_focus (u : Tag) (gap : Int) (fuel : Nat) (f : Nat)
    (hhead : u.focus_stack.head? = some f)
    (hhid : (u.getClient f).flags.hidden = false) :
    (((u.set_layer gap ((u.focus_stack.head?).getD 0) true fuel).set_focus).focus_stack
        = u.focus_stack) ∧
    (((u.set_layer gap ((u.focus_stack.head?).getD 0) true fuel).set_focus).focused
        = some f) := by
  have fr := layerFrame_set_layer gap fuel u ((u.focus_stack.head?).getD 0) true
  have hhead2 : (u.set_layer gap ((u.focus_stack.head?).getD 0) true fuel).focus_stack.head?
      = some f := by rw [fr.stack]; exact hhead
  have hhid2 : ((u.set_layer gap ((u.focus_stack.head?).getD 0) true fuel).getClient
      f).flags.hidden = false := by rw [fr.hiddenFlag]; exact hhid
  obtain ⟨h1, h2⟩ := set_focus_front _ f hhead2 hhid2
  exact ⟨h1.trans fr.stack, h2⟩

end CWM

namespace CWM

/-- Three tiled clients with focus stack `[0, 1, 2]` (0 front-most). -/
def c7t0 : Tag :=
  { Tag.default with
    clients := [mkClient tiledFlags 30, mkClient tiledFlags 31, mkClient tiledFlags 32],
    focus_stack := [0, 1, 2] }

/-- C7 counterexample: `cycle(reverse = true)` on focus stack `[0, 1, 2]`
yields `[2, 0, 1]` — the back-most client is moved to the front — not
`[1, 2, 0]`, which moving the front-most client to the other end (as the
claim states) would give. -/
theorem C7_counterexample_direction :
    ((c7t0.cycle 0 true 5).focus_stack = [2, 0, 1]) ∧
    ((c7t0.cycle 0 true 5).focus_stack ≠
      c7t0.focus_stack.tail ++ [c7t0.focus_stack.head?.getD 0]) := by
  exact ⟨by decide, by decide⟩

/-- C7 amended: `cycle(reverse)` moves the BACK-most client of the focus
stack to the front when `reverse` is true, and the FRONT-most client to the
back when `reverse` is false, and then focuses the new front; on a tag whose
focus stack (the visible clients) has fewer than 2 entries it is a no-op. -/
theorem C7_cycle_amended (t : Tag) (gap : Int) (rev : Bool) (fuel : Nat)
    (hnd : t.focus_stack.Nodup)
    (hhid : ∀ c ∈ t.focus_stack, (t.getClient c).flags.hidden = false) :
    (t.focus_stack.length < 2 → t.cycle gap rev fuel = t) ∧
    (2 ≤ t.focus_stack.length →
      ((t.cycle gap rev fuel).focus_stack =
        (if rev then t.focus_stack.getLast?.getD 0 :: t.focus_stack.dropLast
         else t.focus_stack.tail ++ [t.focus_stack.head?.getD 0])) ∧
      ((t.cycle gap rev fuel).focused =
        some ((if rev then t.focus_stack.getLast?.getD 0 :: t.focus_stack.dropLast
           else t.focus_stack.tail ++ [t.focus_stack.head?.getD 0]).head?.getD 0))) := by
  constructor
  · intro hlt
    unfold Tag.cycle
    rw [if_neg (by omega)]
  · intro hge
    have hne : t.focus_stack ≠ [] := by
      intro h
      rw [h] at hge
      exact absurd hge (by decide)
    unfold Tag.cycle
    rw [if_pos hge]
    cases rev
    case false =>
      dsimp only
      simp only [Bool.false_eq_true, if_false]
      have htail : t.focus_stack.tail ≠ [] := by
        cases hl : t.focus_stack with
        | nil => exact absurd hl hne
        | cons a r =>
          rw [hl] at hge
          intro htl
          simp at htl
          subst htl
          simp at hge
      have hfmem : t.focus_stack.tail.head?.getD 0 ∈ t.focus_stack := by
        have hm := head_getD_mem _ htail
        cases hl : t.focus_stack with
        | nil => exact absurd hl hne
        | cons a r =>
          rw [hl] at hm
          exact List.mem_cons_of_mem a hm
      set U : Tag := ({ t with
        focus_stack := t.focus_stack.erase (t.focus_stack.head?.getD 0) ++
          [t.focus_stack.head?.getD 0] } : Tag).modifyClient
            (t.focus_stack.head?.getD 0) (fun c => { c with stack_pos := 0 })
        with hUdef
      have hh : U.focus_stack.head? = some (t.focus_stack.tail.head?.getD 0) := by
        rw [hUdef]
        show (t.focus_stack.erase (t.focus_stack.head?.getD 0) ++
          [t.focus_stack.head?.getD 0]).head? = _
        rw [erase_head_eq_tail]
        cases hl : t.focus_stack.tail with
        | nil => exact absurd hl htail
        | cons a r => simp
      have hd : (U.getClient (t.focus_stack.tail.head?.getD 0)).flags.hidden = false := by
        rw [hUdef]
        exact ((layerFrame_set_stack_pos _ _).hiddenFlag _).trans (hhid _ hfmem)
      obtain ⟨hst, hfc⟩ := set_layer_then_focus U gap fuel _ hh hd
      constructor
      · rw [hst, hUdef]
        show t.focus_stack.erase (t.focus_stack.head?.getD 0) ++
          [t.focus_stack.head?.getD 0] = _
        rw [erase_head_eq_tail]
      · rw [hfc]
        congr 1
        cases hl : t.focus_stack.tail with
        | nil => exact absurd hl htail
        | cons a r => simp
    case true =>
      dsimp only
      simp only [if_true]
      have hlmem : t.focus_stack.getLast?.getD 0 ∈ t.focus_stack :=
        getLast_getD_mem _ hne
      set U : Tag := ({ t with
        focus_stack := t.focus_stack.getLast?.getD 0 ::
          t.focus_stack.erase (t.focus_stack.getLast?.getD 0) } : Tag).modifyClient
            (t.focus_stack.getLast?.getD 0) (fun c => { c with stack_pos := 0 })
        with hUdef
      have hh : U.focus_stack.head? = some (t.focus_stack.getLast?.getD 0) := by
        rw [hUdef]
        rfl
      have hd : (U.getClient (t.focus_stack.getLast?.getD 0)).flags.hidden = false := by
        rw [hUdef]
        exact ((layerFrame_set_stack_pos _ _).hiddenFlag _).trans (hhid _ hlmem)
      obtain ⟨hst, hfc⟩ := set_layer_then_focus U gap fuel _ hh hd
      constructor
      · rw [hst, hUdef]
        show t.focus_stack.getLast?.getD 0 ::
          t.focus_stack.erase (t.focus_stack.getLast?.getD 0) = _
        rw [erase_getLast_of_nodup _ hnd hne]
      · rw [hfc]
        simp

end CWM

namespace CWM

/-- C4 witness: the amended double-toggle law applied to the concrete tag
`c4t0` at `x = Above`. -/
theorem C4_witness :
    (0 < c4t0.clients.length) ∧
    ((∀ y b : Bool, ((SetArg.mk y true).apply (((SetArg.mk y true).apply b).1)).1 = b) ∧
     ((((c4t0.set_stack_layer 0 0 ⟨.Above, true⟩ 5).set_stack_layer 0 0 ⟨.Above, true⟩
         5).getClient 0).layer = (c4t0.getClient 0).layer) ∧
     ((((c4t0.set_stack_layer 0 0 ⟨.Above, true⟩ 5).set_stack_layer 0 0 ⟨.Above, true⟩
         5).getClient 0).last_layer =
       if (c4t0.getClient 0).layer = StackLayer.Above then (c4t0.getClient 0).last_layer
       else StackLayer.Above)) :=
  ⟨by decide, C4_double_toggle_amended c4t0 0 0 .Above 5 5 (by decide)⟩

/-- C7 witness: the amended cycle law applied to the concrete tag `c7t0`
with `reverse = true`. -/
theorem C7_witness :
    (c7t0.focus_stack.Nodup ∧ ∀ c ∈ c7t0.focus_stack,
      (c7t0.getClient c).flags.hidden = false) ∧
    ((c7t0.focus_stack.length < 2 → c7t0.cycle 0 true 5 = c7t0) ∧
     (2 ≤ c7t0.focus_stack.length →
       ((c7t0.cycle 0 true 5).focus_stack =
         (if true then c7t0.focus_stack.getLast?.getD 0 :: c7t0.focus_stack.dropLast
          else c7t0.focus_stack.tail ++ [c7t0.focus_stack.head?.getD 0])) ∧
       ((c7t0.cycle 0 true 5).focused =
         some ((if true then c7t0.focus_stack.getLast?.getD 0 :: c7t0.focus_stack.dropLast
            else c7t0.focus_stack.tail ++ [c7t0.focus_stack.head?.getD 0]).head?.getD 0)))) :=
  ⟨⟨by decide, by decide⟩, C7_cycle_amended c7t0 0 true 5 (by decide) (by decide)⟩

/-- Every inner node's split ratio lies in `[Side::MIN, Side::MAX]`. -/
def Tag.ratiosOk (t : Tag) : Bool :=
  (List.range t.nodes.length).all fun i =>
    match (t.getNode i).info with
    | .node ni => decide (Side.MIN ≤ ni.ratio ∧ ni.ratio ≤ Side.MAX)
    | _ => true

/-- A recorded preselection amount lies in `[Side::MIN, Side::MAX]`. -/
def preselOk (s : SelectionContent) : Bool :=
  match s with
  | .presel _ _ p => decide (Side.MIN ≤ p.amt ∧ p.amt ≤ Side.MAX)
  | _ => true

/-- The `ClientRequest::PreselAmt` handler from `src/connections.rs`: shift a
recorded preselection amount (sign depending on the side) and clamp it to
`[Side::MIN, Side::MAX]`; `resize_selection` afterwards is display-only. -/
def handlePreselAmt (aux : AuxM) (amt_ : ℚ) : AuxM :=
  match aux.selection with
  | .presel tg nd p =>
      let amt := if p.side.get_split.2 then p.amt + amt_ else p.amt - amt_
      let p2 : Presel := { p with amt := max (min amt Side.MAX) Side.MIN }
      { aux with selection := .presel tg nd p2 }
  | _ => aux

theorem clamp_mem (x : ℚ) :
    Side.MIN ≤ max (min x Side.MAX) Side.MIN ∧ max (min x Side.MAX) Side.MIN ≤ Side.MAX := by
  constructor
  · exact le_max_right _ _
  · apply max_le
    · exact min_le_right _ _
    · decide

theorem ratiosOk_of_shapeOnly {t u : Tag} (h : ShapeOnly t u)
    (hok : t.ratiosOk = true) : u.ratiosOk = true := by
  unfold Tag.ratiosOk at hok ⊢
  rw [h.1.2]
  rw [List.all_eq_true] at hok ⊢
  intro i hi
  rw [(h.2 i).1]
  exact hok i hi

theorem ratiosOk_modifyNode (t : Tag) (i : Nat) (f : Node → Node)
    (hok : t.ratiosOk = true)
    (hf : match (f (t.getNode i)).info with
      | .node ni => Side.MIN ≤ ni.ratio ∧ ni.ratio ≤ Side.MAX
      | _ => True) :
    (t.modifyNode i f).ratiosOk = true := by
  unfold Tag.ratiosOk at hok ⊢
  have hlen : (t.modifyNode i f).nodes.length = t.nodes.length := List.length_set ..
  rw [hlen]
  rw [List.all_eq_true] at hok ⊢
  intro j hj
  by_cases hij : i = j
  · subst hij
    have hget : (t.modifyNode i f).getNode i = f (t.getNode i) := by
      unfold Tag.modifyNode Tag.setNode Tag.getNode
      exact getD_set_eq _ _ _ _ (by simpa using hj)
    rw [hget]
    revert hf
    cases (f (t.getNode i)).info <;> simp
  · have hget : (t.modifyNode i f).getNode j = t.getNode j := by
      unfold Tag.modifyNode Tag.setNode Tag.getNode
      exact getD_set_ne _ _ _ hij
    rw [hget]
    exact hok j hj

end CWM

namespace CWM

theorem ratiosOk_clamp_update (u : Tag) (p : Nat) (g : NodeInfo → Node → ℚ)
    (hok : u.ratiosOk = true) :
    (u.modifyNode p fun n =>
      match n.info with
      | .node ni =>
          { n with info := .node { ni with
              ratio := max (min (g ni n) Side.MAX) Side.MIN } }
      | _ => n).ratiosOk = true := by
  apply ratiosOk_modifyNode _ _ _ hok
  cases hinfo : (u.getNode p).info
  all_goals simp [hinfo]
  all_goals decide

theorem ratiosOk_resize_client (t : Tag) (aux : AuxM) (client : Nat)
    (delta : Int × Int) (l tp : Bool) (fuel : Nat) (hok : t.ratiosOk = true) :
    (t.resize_client aux client delta l tp fuel).ratiosOk = true := by
  unfold Tag.resize_client
  dsimp only
  split
  · exact hok
  · split
    · split
      · exact ratiosOk_modifyNode _ _ _ hok trivial
      · exact hok
    · refine ratiosOk_of_shapeOnly (shapeOnly_processQueue ..) ?_
      split
      · apply ratiosOk_clamp_update
        split
        · exact ratiosOk_clamp_update _ _ _ hok
        · exact hok
      · split
        · exact ratiosOk_clamp_update _ _ _ hok
        · exact hok

theorem preselOk_handlePreselAmt (aux : AuxM) (a : ℚ) :
    preselOk (handlePreselAmt aux a).selection = true := by
  unfold handlePreselAmt
  cases hsel : aux.selection with
  | presel tg nd p =>
      simp only [preselOk, decide_eq_true_eq]
      exact ⟨(clamp_mem _).1, (clamp_mem _).2⟩
  | node tg nd =>
      show preselOk aux.selection = true
      rw [hsel]
      rfl
  | none =>
      show preselOk aux.selection = true
      rw [hsel]
      rfl

/-- The operations quantified over by the ratio-range claim: an arbitrary
`ResizeWindow`-driven `resize_client` and an arbitrary `PreselAmt`
adjustment. -/
inductive RatioOp where
  | resize : Nat → Int × Int → Bool → Bool → RatioOp
  | preselAmt : ℚ → RatioOp

/-- Dispatch one ratio-affecting operation on the (selection, tag) state. -/
def applyRatioOp (fuel : Nat) (s : AuxM × Tag) : RatioOp → AuxM × Tag
  | .resize c d l tp => (s.1, s.2.resize_client s.1 c d l tp fuel)
  | .preselAmt a => (handlePreselAmt s.1 a, s.2)

/-- C3: whatever sequence of `resize_client` calls (arbitrary deltas, edges
and clients) and `PreselAmt` adjustments is applied, every inner node's split
ratio stays within `[Side::MIN, Side::MAX] = [0.1, 0.9]` (and so does any
recorded preselection ratio), provided it started there. -/
theorem C3_ratio_range_invariant (fuel : Nat) (ops : List RatioOp) :
    ∀ (s : AuxM × Tag), s.2.ratiosOk = true → preselOk s.1.selection = true →
      ((ops.foldl (applyRatioOp fuel) s).2.ratiosOk = true ∧
       preselOk ((ops.foldl (applyRatioOp fuel) s).1.selection) = true) := by
  induction ops with
  | nil => intro s h1 h2; exact ⟨h1, h2⟩
  | cons op rest ih =>
    intro s h1 h2
    apply ih
    · cases op with
      | resize c d lft tp => exact ratiosOk_resize_client _ _ _ _ _ _ _ h1
      | preselAmt a => exact h1
    · cases op with
      | resize c d lft tp => exact h2
      | preselAmt a => exact preselOk_handlePreselAmt _ _

/-- `1/2` as a `Rat` constructor literal (kernel-inspectable). -/
def ratioHalf : ℚ := ⟨1, 2, by decide, by decide⟩

/-- A small concrete tag for the ratio-range witness: one vertical split with
ratio `1/2` over two tiled clients. -/
def c3t0 : Tag :=
  { Tag.default with
    nodes := [
      { parent := Option.none, absent := false, rect := ⟨0, 0, 100, 100⟩,
        info := .node ⟨.Vertical, ratioHalf, 1, 2⟩ },
      { parent := some (0, true), absent := false, rect := ⟨0, 0, 50, 100⟩,
        info := .leaf ⟨⟨0, 0, 10, 10⟩, (0, 0), (65535, 65535), 0⟩ },
      { parent := some (0, false), absent := false, rect := ⟨50, 0, 50, 100⟩,
        info := .leaf ⟨⟨0, 0, 10, 10⟩, (0, 0), (65535, 65535), 1⟩ }],
    clients := [{ mkClient tiledFlags 40 with node := 1 },
                { mkClient tiledFlags 41 with node := 2 }],
    focus_stack := [0, 1] }

/-- C3 witness: a concrete sequence (a presel adjustment of `+5` and a large
leftward resize drag) on `c3t0` keeps every ratio in range. -/
theorem C3_witness :
    ((auxPlain, c3t0).2.ratiosOk = true ∧
      preselOk (auxPlain, c3t0).1.selection = true) ∧
    (([RatioOp.preselAmt 5, RatioOp.resize 0 (1000, -37) true false].foldl
        (applyRatioOp 20) (auxPlain, c3t0)).2.ratiosOk = true ∧
     preselOk (([RatioOp.preselAmt 5, RatioOp.resize 0 (1000, -37) true false].foldl
        (applyRatioOp 20) (auxPlain, c3t0)).1.selection) = true) :=
  ⟨⟨by decide, by decide⟩,
    C3_ratio_range_invariant 20 [RatioOp.preselAmt 5, RatioOp.resize 0 (1000, -37) true false]
      (auxPlain, c3t0) (by decide) (by decide)⟩

theorem getD_append_left {α : Type _} (l l' : List α) (d : α) (i : Nat)
    (h : i < l.length) : (l ++ l').getD i d = l.getD i d := by
  simp [List.getD_eq_getElem?_getD, List.getElem?_append_left h]

theorem getD_append_self {α : Type _} (l : List α) (a d : α) (i : Nat)
    (h : i = l.length) : (l ++ [a]).getD i d = a := by
  subst h
  simp [List.getD_eq_getElem?_getD]

/-- The `(split, first, ratio)` choice made at the top of `Tag::split_leaf`
(`src/tag/node.rs`): a presel recorded on the target leaf supplies
`side.get_split()` and its amount; otherwise the default is a `0.5` split,
`Vertical` iff the leaf is wider than tall, with the new leaf second. -/
def splitChoice (aux : AuxM) (t : Tag) (leaf_idx : Nat) : (Split × Bool) × ℚ :=
  match (aux.selection.takePresel t.id leaf_idx).1 with
  | Option.none =>
      let rect := (t.getNode leaf_idx).rect
      ((if rect.width > rect.height then .Vertical else .Horizontal, false), 1 / 2)
  | some presel => (presel.side.get_split, presel.amt)

theorem takePresel_eq_of_match (a b : Nat) (p : Presel) :
    (SelectionContent.presel a b p).takePresel a b = (some p, .none) := by
  unfold SelectionContent.takePresel
  dsimp only
  rw [if_pos ⟨rfl, rfl⟩]

theorem takePresel_none_snd (s : SelectionContent) (a b : Nat)
    (h : (s.takePresel a b).1 = Option.none) : (s.takePresel a b).2 = s := by
  cases s with
  | presel tg nd p =>
      unfold SelectionContent.takePresel at h ⊢
      dsimp only at h ⊢
      by_cases hc : tg = a ∧ nd = b
      · rw [if_pos hc] at h
        exact absurd h (by simp)
      · rw [if_neg hc]
  | node tg nd => rfl
  | none => rfl

/-- The rect-recomputation and display tail of `split_leaf` never changes the
`info` (or `parent`) of any node. -/
theorem tailInfo (t : Tag) (g : Int) (l fuel : Nat)
    (c1 c2 c3 : Prop) [Decidable c1] [Decidable c2] [Decidable c3] (j : Nat) :
    (Tag.getNode
      (if c3
       then Tag.apply_pos_size
         (if c1 then t.propagate_absent g l fuel
          else if c2 then (t.resize_node g l [] false).1 else t)
       else (if c1 then t.propagate_absent g l fuel
             else if c2 then (t.resize_node g l [] false).1 else t)) j).info
      = (t.getNode j).info := by
  dsimp only [Tag.apply_pos_size]
  rw [ite_self]
  split
  · exact ((shapeOnly_propagate_absent _ _ _ _).2 j).1
  · split
    · exact ((shapeOnly_resize_node _ _ _ _ _).2 j).1
    · rfl

/-- What `split_leaf` writes, for a target leaf and an empty free list: the
payload of the old leaf moves to the first fresh slot, the new payload lands in
the second fresh slot, the target becomes an inner node carrying the chosen
split/ratio with the new leaf first iff the choice says so, and the
selection is replaced by what `takePresel` leaves. -/
theorem split_leaf_writes (aux : AuxM) (t : Tag) (leaf_idx idx fuel : Nat)
    (absent : Bool) (info : NodeContents) (li : LeafInfo)
    (hleaf : (t.getNode leaf_idx).info = .leaf li)
    (hfree : t.free_nodes = [])
    (hlen : leaf_idx < t.nodes.length) :
    (t.split_leaf aux leaf_idx absent idx info fuel).1.selection
        = (aux.selection.takePresel t.id leaf_idx).2 ∧
    ((t.split_leaf aux leaf_idx absent idx info fuel).2.getNode t.nodes.length).info
        = .leaf li ∧
    ((t.split_leaf aux leaf_idx absent idx info fuel).2.getNode (t.nodes.length + 1)).info
        = info ∧
    ((t.split_leaf aux leaf_idx absent idx info fuel).2.getNode leaf_idx).info
        = .node { split := (splitChoice aux t leaf_idx).1.1,
                  ratio := (splitChoice aux t leaf_idx).2,
                  first_child := if (splitChoice aux t leaf_idx).1.2
                                 then t.nodes.length + 1 else t.nodes.length,
                  second_child := if (splitChoice aux t leaf_idx).1.2
                                  then t.nodes.length else t.nodes.length + 1 } := by
  obtain ⟨tid, tname, tnodes, tclients, tfree, tfcl, tfs, tlay, tsz, ttl, tfoc,
    tmon, turg, tpsu, thid, tmono, ttemp, tbg⟩ := t
  dsimp only at hleaf hfree hlen ⊢
  subst hfree
  have hsucc1 : leaf_idx < tnodes.length + 1 := Nat.lt_succ_of_lt hlen
  have hsucc2 : leaf_idx < tnodes.length + 1 + 1 := Nat.lt_succ_of_lt hsucc1
  have hne1 : leaf_idx ≠ tnodes.length := Nat.ne_of_lt hlen
  have hne2 : leaf_idx ≠ tnodes.length + 1 := Nat.ne_of_lt hsucc1
  have hleaf2 : (List.getD tnodes leaf_idx Inhabited.default).info
      = NodeContents.leaf li := hleaf
  unfold Tag.split_leaf Tag.add_node Tag.modifyNode Tag.setNode Tag.modifyClient
    Tag.setClient
  dsimp only
  refine ⟨rfl, ?_, ?_, ?_⟩
  all_goals refine Eq.trans (tailInfo _ _ _ _ _ _ _ _) ?_
  all_goals simp only [Tag.getNode, getD_append_left, getD_append_self, getD_set_eq,
    getD_set_ne, hleaf2, hlen, hsucc1, hsucc2, hne1, hne2, List.length_append,
    List.length_cons, List.length_nil, Nat.zero_add, Nat.lt_succ_self,
    ne_eq, not_false_eq_true]
  all_goals rfl

/-- The leaf payload of the single leaf of `c2t0`. -/
def c2li : LeafInfo :=
  { floating := ⟨0, 0, 10, 10⟩, min_size := (0, 0),
    max_size := (65535, 65535), client := 0 }

/-- A one-leaf tag (leaf wider than tall) with one tiled client, used as the
split-leaf witness input. -/
def c2t0 : Tag :=
  { Tag.default with
    nodes := [
      { parent := Option.none, absent := false, rect := ⟨0, 0, 100, 50⟩,
        info := .leaf c2li }],
    clients := [mkClient tiledFlags 40],
    focus_stack := [0] }

/-- C2: when `split_leaf` splits a target leaf (with an empty node free
list), the old leaf contents move to the first freshly allocated slot and
the new payload to the second; if a presel is recorded on the leaf, its
`side.get_split()` fixes the orientation and which of the new/old leaf
takes the first child slot, its amount becomes the ratio, and the presel is
cleared; otherwise the selection is untouched and the leaf becomes a
`Vertical` split iff it is wider than tall (`Horizontal` otherwise) with
ratio `0.5` and the new leaf as second child. -/
theorem C2_split_leaf_presel_default (aux : AuxM) (t : Tag)
    (leaf_idx idx fuel : Nat) (absent : Bool) (info : NodeContents)
    (li : LeafInfo)
    (hleaf : (t.getNode leaf_idx).info = .leaf li)
    (hfree : t.free_nodes = [])
    (hlen : leaf_idx < t.nodes.length) :
    ((t.split_leaf aux leaf_idx absent idx info fuel).2.getNode t.nodes.length).info
        = .leaf li ∧
    ((t.split_leaf aux leaf_idx absent idx info fuel).2.getNode (t.nodes.length + 1)).info
        = info ∧
    (∀ p, aux.selection = .presel t.id leaf_idx p →
      (t.split_leaf aux leaf_idx absent idx info fuel).1.selection = .none ∧
      ((t.split_leaf aux leaf_idx absent idx info fuel).2.getNode leaf_idx).info
        = .node { split := p.side.get_split.1, ratio := p.amt,
                  first_child := if p.side.get_split.2
                                 then t.nodes.length + 1 else t.nodes.length,
                  second_child := if p.side.get_split.2
                                  then t.nodes.length else t.nodes.length + 1 }) ∧
    ((aux.selection.takePresel t.id leaf_idx).1 = Option.none →
      (t.split_leaf aux leaf_idx absent idx info fuel).1.selection = aux.selection ∧
      ((t.split_leaf aux leaf_idx absent idx info fuel).2.getNode leaf_idx).info
        = .node { split := if (t.getNode leaf_idx).rect.width >
                              (t.getNode leaf_idx).rect.height
                           then .Vertical else .Horizontal,
                  ratio := 1 / 2,
                  first_child := t.nodes.length,
                  second_child := t.nodes.length + 1 }) := by
  obtain ⟨hsel, hN, hN1, hW⟩ :=
    split_leaf_writes aux t leaf_idx idx fuel absent info li hleaf hfree hlen
  refine ⟨hN, hN1, ?_, ?_⟩
  · intro p hp
    have hc : splitChoice aux t leaf_idx = (p.side.get_split, p.amt) := by
      unfold splitChoice
      rw [hp, takePresel_eq_of_match]
    constructor
    · rw [hsel, hp, takePresel_eq_of_match]
    · rw [hW, hc]
  · intro hnone
    have hc : splitChoice aux t leaf_idx =
        ((if (t.getNode leaf_idx).rect.width > (t.getNode leaf_idx).rect.height
          then Split.Vertical else Split.Horizontal, false), 1 / 2) := by
      unfold splitChoice
      rw [hnone]
    constructor
    · rw [hsel, takePresel_none_snd _ _ _ hnone]
    · rw [hW, hc]
      rfl

/-- C2 witness: splitting the single leaf of `c2t0` (no presel recorded)
yields a `Vertical` split of ratio `1/2` with the old leaf first and the new
payload second, at the two freshly appended node slots. -/
theorem C2_witness :
    ((c2t0.getNode 0).info = NodeContents.leaf c2li ∧
     c2t0.free_nodes = [] ∧ 0 < c2t0.nodes.length) ∧
    (((c2t0.split_leaf auxPlain 0 false 0 NodeContents.empty 5).2.getNode
        c2t0.nodes.length).info = .leaf c2li ∧
     ((c2t0.split_leaf auxPlain 0 false 0 NodeContents.empty 5).2.getNode
        (c2t0.nodes.length + 1)).info = NodeContents.empty ∧
     (∀ p, auxPlain.selection = .presel c2t0.id 0 p →
       (c2t0.split_leaf auxPlain 0 false 0 NodeContents.empty 5).1.selection = .none ∧
       ((c2t0.split_leaf auxPlain 0 false 0 NodeContents.empty 5).2.getNode 0).info
         = .node { split := p.side.get_split.1, ratio := p.amt,
                   first_child := if p.side.get_split.2
                                  then c2t0.nodes.length + 1 else c2t0.nodes.length,
                   second_child := if p.side.get_split.2
                                   then c2t0.nodes.length else c2t0.nodes.length + 1 }) ∧
     ((auxPlain.selection.takePresel c2t0.id 0).1 = Option.none →
       (c2t0.split_leaf auxPlain 0 false 0 NodeContents.empty 5).1.selection
         = auxPlain.selection ∧
       ((c2t0.split_leaf auxPlain 0 false 0 NodeContents.empty 5).2.getNode 0).info
         = .node { split := if (c2t0.getNode 0).rect.width >
                               (c2t0.getNode 0).rect.height
                            then .Vertical else .Horizontal,
                   ratio := 1 / 2,
                   first_child := c2t0.nodes.length,
                   second_child := c2t0.nodes.length + 1 })) :=
  ⟨⟨by decide, rfl, by decide⟩,
   C2_split_leaf_presel_default auxPlain c2t0 0 0 5 false NodeContents.empty c2li
     (by decide) rfl (by decide)⟩

theorem NodesOnly.getSlot {t u : Tag} (h : NodesOnly t u) (i : Nat) :
    u.getSlot i = t.getSlot i := by
  unfold Tag.getSlot
  rw [h.layers]

theorem getSlot_setSlot_eq (t : Tag) (i : Nat) (s : LayerSlot)
    (h : i < t.layers.length) : (t.setSlot i s).getSlot i = s := by
  unfold Tag.setSlot Tag.getSlot
  exact getD_set_eq _ _ _ _ h

theorem getSlot_setSlot_ne (t : Tag) {i j : Nat} (s : LayerSlot) (h : i ≠ j) :
    (t.setSlot i s).getSlot j = t.getSlot j := by
  unfold Tag.setSlot Tag.getSlot
  exact getD_set_ne _ _ _ h

theorem getSlot_modifyClient (t : Tag) (j : Nat) (f : Client → Client) (i : Nat) :
    (t.modifyClient j f).getSlot i = t.getSlot i := rfl

/-- No node has its `absent` flag changed: the per-node version of a
rect-only recomputation. -/
theorem absent_modifyNode_keep (t : Tag) (i : Nat) (f : Node → Node)
    (hf : ∀ n, (f n).absent = n.absent) (j : Nat) :
    ((t.modifyNode i f).getNode j).absent = (t.getNode j).absent := by
  unfold Tag.modifyNode Tag.setNode Tag.getNode
  by_cases hij : i = j
  · subst hij
    by_cases hi : i < t.nodes.length
    · rw [getD_set_eq _ _ _ _ hi]
      exact hf _
    · rw [getD_set_le _ _ _ (Nat.le_of_not_lt hi)]
  · rw [getD_set_ne _ _ _ hij]

theorem absent_setRect (t : Tag) (i : Nat) (r : Rect) (j : Nat) :
    ((t.modifyNode i fun n => { n with rect := r }).getNode j).absent
      = (t.getNode j).absent := by
  apply absent_modifyNode_keep
  intro n
  rfl

theorem absent_resize_node (t : Tag) (gap : Int) (n : Nat) (q : List Nat)
    (b : Bool) (j : Nat) :
    (((t.resize_node gap n q b).1.getNode j)).absent = (t.getNode j).absent := by
  unfold Tag.resize_node
  split
  · dsimp only
    split
    · exact (absent_setRect _ _ _ _).trans (absent_setRect _ _ _ _)
    · split
      · exact absent_setRect _ _ _ _
      · exact absent_setRect _ _ _ _
      · exact (absent_setRect _ _ _ _).trans (absent_setRect _ _ _ _)
      · rfl
  · rfl

theorem absent_processQueue (gap : Int) :
    ∀ (fuel : Nat) (t : Tag) (q : List Nat) (j : Nat),
      ((t.processQueue gap q fuel).getNode j).absent = (t.getNode j).absent := by
  intro fuel
  induction fuel with
  | zero => intro t q j; rfl
  | succ fuel ih =>
    intro t q j
    unfold Tag.processQueue
    match q with
    | [] => rfl
    | n :: rest =>
      simp only
      split
      · exact (ih _ _ _).trans (absent_resize_node t gap n rest false j)
      · exact ih _ _ _
      · exact ih _ _ _

theorem absent_resize_tiled_none (t : Tag) (gap : Int) (node fuel j : Nat) :
    ((t.resize_tiled gap node Option.none fuel).getNode j).absent
      = (t.getNode j).absent :=
  absent_processQueue gap fuel t [0] j

/-- `set_absent` on a client whose node is a root (no parent): the absent
flag of that node ends up equal to the requested value (`propagate_absent`
is skipped and the rect recomputation never touches absent flags). -/
theorem set_absent_root (t : Tag) (gap : Int) (c : Nat) (a : Bool) (fuel : Nat)
    (hpar : (t.getNode (t.getClient c).node).parent = Option.none)
    (hnode : (t.getClient c).node < t.nodes.length) :
    ((t.set_absent gap c a fuel).getNode (t.getClient c).node).absent = a := by
  unfold Tag.set_absent
  dsimp only
  rw [hpar]
  simp only [Option.map, ite_self]
  have key : ∀ (w : Tag), (w.getNode (t.getClient c).node).absent = a →
      ((if (!a) = true then w.resize_tiled gap (w.getClient c).node Option.none fuel
        else w).getNode (t.getClient c).node).absent = a := by
    intro w hw
    split
    · rw [absent_resize_tiled_none]
      exact hw
    · exact hw
  apply key
  by_cases hab : (t.getNode (t.getClient c).node).absent ≠ a
  · rw [if_pos hab]
    unfold Tag.modifyNode Tag.setNode Tag.getNode
    rw [getD_set_eq _ _ _ _ hnode]
  · rw [if_neg hab]
    exact not_not.mp hab

/-- The writes `set_layer` performs up to (and including) clearing the
evicted occupant of a `Single` slot: slot `L` now holds `idx`, `idx` has
`layer_pos (L, 0)`, and the occupant `o` has its fullscreen flag cleared. -/
def evictWrite (t : Tag) (idx o L : Nat) : Tag :=
  ((t.setSlot L (.single (some idx))).modifyClient idx
      (fun c => { c with layer_pos := (L, 0) })).modifyClient o
    (fun c => { c with flags := { c.flags with fullscreen := false } })

theorem evictWrite_getClient_o (t : Tag) (idx o L : Nat) (hne : o ≠ idx)
    (ho : o < t.clients.length) :
    (evictWrite t idx o L).getClient o
      = { t.getClient o with
          flags := { (t.getClient o).flags with fullscreen := false } } := by
  unfold evictWrite
  rw [getClient_modifyClient_self _ _ _
      (by simpa [Tag.modifyClient, Tag.setClient, Tag.setSlot] using ho),
    getClient_modifyClient_ne _ _ (Ne.symm hne)]
  rfl

theorem evictWrite_getClient_idx (t : Tag) (idx o L : Nat) (hne : o ≠ idx)
    (hidx : idx < t.clients.length) :
    (evictWrite t idx o L).getClient idx
      = { t.getClient idx with layer_pos := (L, 0) } := by
  unfold evictWrite
  rw [getClient_modifyClient_ne _ _ hne,
    getClient_modifyClient_self _ _ _ (by simpa [Tag.setSlot] using hidx)]
  rfl

theorem evictWrite_getSlot_L (t : Tag) (idx o L : Nat)
    (hlay : L < t.layers.length) :
    (evictWrite t idx o L).getSlot L = .single (some idx) := by
  unfold evictWrite
  rw [getSlot_modifyClient, getSlot_modifyClient, getSlot_setSlot_eq _ _ _ hlay]

theorem evictWrite_getSlot_ne (t : Tag) (idx o L : Nat) {j : Nat} (h : L ≠ j) :
    (evictWrite t idx o L).getSlot j = t.getSlot j := by
  unfold evictWrite
  rw [getSlot_modifyClient, getSlot_modifyClient, getSlot_setSlot_ne _ _ h]

theorem evictWrite_getNode (t : Tag) (idx o L j : Nat) :
    (evictWrite t idx o L).getNode j = t.getNode j := rfl

theorem evictWrite_clients_length (t : Tag) (idx o L : Nat) :
    (evictWrite t idx o L).clients.length = t.clients.length := by
  simp [evictWrite, Tag.modifyClient, Tag.setClient, Tag.setSlot]

theorem evictWrite_layers_length (t : Tag) (idx o L : Nat) :
    (evictWrite t idx o L).layers.length = t.layers.length := by
  simp [evictWrite, Tag.modifyClient, Tag.setClient, Tag.setSlot]

/-- One unfolding of `set_layer` when the target slot is an occupied
`Single`: the occupant `o` is evicted (fullscreen cleared, `set_absent
false` unless floating) and re-inserted by the recursive `set_layer` with
`focus = true`. -/
theorem set_layer_single_step (t : Tag) (gap : Int) (idx o : Nat) (focus : Bool)
    (fuel L : Nat) (b : Bool)
    (hL : L = (t.getClient idx).layer.get + (t.getClient idx).flags.get_layer)
    (hslot : t.getSlot L = .single (some o))
    (hne : o ≠ idx) (ho : o < t.clients.length)
    (hfl : (t.getClient o).flags.floating = b) :
    t.set_layer gap idx focus (fuel + 1) =
      (if (!b) = true then (evictWrite t idx o L).set_absent gap o false fuel
       else evictWrite t idx o L).set_layer gap o true fuel := by
  conv_lhs => unfold Tag.set_layer
  dsimp only
  rw [← hL, hslot]
  dsimp only [LayerSlot.push_front, LayerSlot.push_back]
  rw [ite_self]
  dsimp only
  have hco : ((evictWrite t idx o L).getClient o).flags.floating = b := by
    rw [evictWrite_getClient_o t idx o L hne ho]
    exact hfl
  rw [show (((t.setSlot L (.single (some idx))).modifyClient idx
        (fun c => { c with layer_pos := (L, 0) })).modifyClient o
        (fun c => { c with flags := { c.flags with fullscreen := false } }))
      = evictWrite t idx o L from rfl]
  rw [hco]

/-- One unfolding of `set_layer` with `focus = true` when the target slot is
`Multi`: the client is pushed to the front and nothing is evicted. -/
theorem set_layer_multi_front_step (t : Tag) (gap : Int) (idx : Nat)
    (fuel L : Nat) (l : List Nat)
    (hL : L = (t.getClient idx).layer.get + (t.getClient idx).flags.get_layer)
    (hslot : t.getSlot L = .multi l) :
    t.set_layer gap idx true (fuel + 1) =
      (t.setSlot L (.multi (idx :: l))).modifyClient idx
        fun c => { c with layer_pos := (L, 0) } := by
  unfold Tag.set_layer
  dsimp only
  rw [← hL, hslot, if_pos rfl]
  dsimp only [LayerSlot.push_front]

/-- C6: a `Single` layer slot holds at most one occupant.  When `set_layer`
inserts client `idx` into its slot `L` already occupied by `o` (and the new
slot `Lo` of the evicted `o` is a distinct `Multi` slot), `o` is evicted:
its fullscreen flag is cleared, `set_absent(false)` reaches its (root) node
unless the client is also floating, and the recursive `set_layer` with
`focus = true` re-inserts `o` at the front of `Lo`; slot `L` ends up
holding exactly `idx`. -/
theorem C6_single_slot_eviction (t : Tag) (gap : Int) (idx o : Nat)
    (focus : Bool) (fuel : Nat) (L Lo : Nat) (l : List Nat)
    (hL : L = (t.getClient idx).layer.get + (t.getClient idx).flags.get_layer)
    (hLo : Lo = (t.getClient o).layer.get +
        ClientFlags.get_layer { (t.getClient o).flags with fullscreen := false })
    (hslot : t.getSlot L = .single (some o))
    (hmulti : t.getSlot Lo = .multi l)
    (hne : o ≠ idx)
    (hdiff : Lo ≠ L)
    (hlayL : L < t.layers.length)
    (hlayLo : Lo < t.layers.length)
    (hidx : idx < t.clients.length)
    (ho : o < t.clients.length)
    (hpar : (t.getNode (t.getClient o).node).parent = Option.none)
    (hnode : (t.getClient o).node < t.nodes.length) :
    (t.set_layer gap idx focus (fuel + 2)).getSlot L = .single (some idx) ∧
    (t.set_layer gap idx focus (fuel + 2)).getSlot Lo = .multi (o :: l) ∧
    ((t.set_layer gap idx focus (fuel + 2)).getClient o).flags.fullscreen = false ∧
    ((t.set_layer gap idx focus (fuel + 2)).getClient o).layer_pos = (Lo, 0) ∧
    ((t.set_layer gap idx focus (fuel + 2)).getClient idx).layer_pos = (L, 0) ∧
    ((t.getClient o).flags.floating = false →
      ((t.set_layer gap idx focus (fuel + 2)).getNode
        (t.getClient o).node).absent = false) ∧
    ((t.getClient o).flags.floating = true →
      ((t.set_layer gap idx focus (fuel + 2)).getNode (t.getClient o).node).absent
        = (t.getNode (t.getClient o).node).absent) := by
  have main : ∀ (T3 : Tag),
      T3.getClient o = { t.getClient o with
          flags := { (t.getClient o).flags with fullscreen := false } } →
      T3.getSlot Lo = LayerSlot.multi l →
      T3.getSlot L = LayerSlot.single (some idx) →
      T3.layers.length = t.layers.length →
      T3.clients.length = t.clients.length →
      T3.getClient idx = { t.getClient idx with layer_pos := (L, 0) } →
      ((T3.set_layer gap o true (fuel + 1)).getSlot L = .single (some idx) ∧
       (T3.set_layer gap o true (fuel + 1)).getSlot Lo = .multi (o :: l) ∧
       (T3.set_layer gap o true (fuel + 1)).getClient o
         = { t.getClient o with
             flags := { (t.getClient o).flags with fullscreen := false },
             layer_pos := (Lo, 0) } ∧
       (T3.set_layer gap o true (fuel + 1)).getClient idx
         = { t.getClient idx with layer_pos := (L, 0) } ∧
       ∀ j, (T3.set_layer gap o true (fuel + 1)).getNode j = T3.getNode j) := by
    intro T3 hc hm hs hll hcl hi
    have hLo3 : Lo = (T3.getClient o).layer.get + (T3.getClient o).flags.get_layer := by
      rw [hc]
      exact hLo
    rw [set_layer_multi_front_step T3 gap o fuel Lo l hLo3 hm]
    refine ⟨?_, ?_, ?_, ?_, ?_⟩
    · rw [getSlot_modifyClient, getSlot_setSlot_ne _ _ hdiff]
      exact hs
    · rw [getSlot_modifyClient,
        getSlot_setSlot_eq _ _ _ (by rw [hll]; exact hlayLo)]
    · rw [getClient_modifyClient_self _ _ _
          (by simpa [Tag.setSlot, hcl] using ho),
        show (T3.setSlot Lo (LayerSlot.multi (o :: l))).getClient o
          = T3.getClient o from rfl, hc]
    · rw [getClient_modifyClient_ne _ _ hne,
        show (T3.setSlot Lo (LayerSlot.multi (o :: l))).getClient idx
          = T3.getClient idx from rfl, hi]
    · intro j
      rfl
  cases hfl : (t.getClient o).flags.floating with
  | false =>
    rw [set_layer_single_step t gap idx o focus (fuel + 1) L false hL hslot
        hne ho hfl]
    simp only [Bool.not_false, if_true]
    have hnodeEq : ((evictWrite t idx o L).getClient o).node
        = (t.getClient o).node := by
      rw [evictWrite_getClient_o t idx o L hne ho]
    have SA := (shapeOnly_set_absent (evictWrite t idx o L) gap o false
        (fuel + 1)).1
    obtain ⟨m1, m2, m3, m4, m5⟩ := main
      ((evictWrite t idx o L).set_absent gap o false (fuel + 1))
      ((SA.getClient o).trans (evictWrite_getClient_o t idx o L hne ho))
      ((NodesOnly.getSlot SA Lo).trans
        ((evictWrite_getSlot_ne t idx o L (Ne.symm hdiff)).trans hmulti))
      ((NodesOnly.getSlot SA L).trans (evictWrite_getSlot_L t idx o L hlayL))
      ((congrArg List.length SA.layers).trans (evictWrite_layers_length t idx o L))
      ((congrArg List.length SA.clients).trans (evictWrite_clients_length t idx o L))
      ((SA.getClient idx).trans (evictWrite_getClient_idx t idx o L hne hidx))
    refine ⟨m1, m2, ?_, ?_, ?_, ?_, ?_⟩
    · rw [m3]
    · rw [m3]
    · rw [m4]
    · intro hx
      rw [m5]
      have habs := set_absent_root (evictWrite t idx o L) gap o false (fuel + 1)
        (by rw [hnodeEq, evictWrite_getNode]; exact hpar)
        (by rw [hnodeEq]; exact hnode)
      rw [hnodeEq] at habs
      exact habs
    · intro hx
      exact absurd hx (by decide)
  | true =>
    rw [set_layer_single_step t gap idx o focus (fuel + 1) L true hL hslot
        hne ho hfl]
    simp only [Bool.not_true, Bool.false_eq_true, if_false]
    obtain ⟨m1, m2, m3, m4, m5⟩ := main (evictWrite t idx o L)
      (evictWrite_getClient_o t idx o L hne ho)
      ((evictWrite_getSlot_ne t idx o L (Ne.symm hdiff)).trans hmulti)
      (evictWrite_getSlot_L t idx o L hlayL)
      (evictWrite_layers_length t idx o L)
      (evictWrite_clients_length t idx o L)
      (evictWrite_getClient_idx t idx o L hne hidx)
    refine ⟨m1, m2, ?_, ?_, ?_, ?_, ?_⟩
    · rw [m3]
    · rw [m3]
    · rw [m4]
    · intro hx
      exact absurd hx (by decide)
    · intro hx
      rw [m5, evictWrite_getNode]

/-- A tag whose `Normal`-fullscreen slot (index 5) is occupied by client 0,
while client 1 is also flagged fullscreen and about to be inserted there. -/
def c6t0 : Tag :=
  { Tag.default with
    nodes := [
      { parent := Option.none, absent := false, rect := ⟨0, 0, 100, 50⟩,
        info := .leaf { floating := ⟨0, 0, 10, 10⟩, min_size := (0, 0),
                        max_size := (65535, 65535), client := 0 } }],
    clients := [
      { layer := .Normal, last_layer := .Normal, node := 0, stack_pos := 0,
        layer_pos := (5, 0),
        flags := { urgent := false, hidden := false, floating := false,
                   fullscreen := true, sticky := false, psuedoUrgent := false },
        win := 10, frame := 110 },
      { layer := .Normal, last_layer := .Normal, node := 0, stack_pos := 0,
        layer_pos := (3, 0),
        flags := { urgent := false, hidden := false, floating := false,
                   fullscreen := true, sticky := false, psuedoUrgent := false },
        win := 11, frame := 111 }],
    layers := [.multi [], .multi [], .single Option.none,
               .multi [], .multi [], .single (some 0),
               .multi [], .multi [], .single Option.none],
    focus_stack := [1, 0] }

/-- C6 witness: inserting fullscreen client 1 into slot 5 of `c6t0` evicts
client 0, clears its fullscreen flag, marks its root node present again, and
pushes it to the front of the (empty) `Normal` tiling slot 3. -/
theorem C6_witness :
    ((5 : Nat) = (c6t0.getClient 1).layer.get + (c6t0.getClient 1).flags.get_layer ∧
     (3 : Nat) = (c6t0.getClient 0).layer.get +
        ClientFlags.get_layer { (c6t0.getClient 0).flags with fullscreen := false } ∧
     c6t0.getSlot 5 = .single (some 0) ∧
     c6t0.getSlot 3 = .multi [] ∧
     (0 : Nat) ≠ 1 ∧ (3 : Nat) ≠ 5 ∧
     5 < c6t0.layers.length ∧ 3 < c6t0.layers.length ∧
     1 < c6t0.clients.length ∧ 0 < c6t0.clients.length ∧
     (c6t0.getNode (c6t0.getClient 0).node).parent = Option.none ∧
     (c6t0.getClient 0).node < c6t0.nodes.length) ∧
    ((c6t0.set_layer 0 1 true 5).getSlot 5 = .single (some 1) ∧
     (c6t0.set_layer 0 1 true 5).getSlot 3 = .multi [0] ∧
     ((c6t0.set_layer 0 1 true 5).getClient 0).flags.fullscreen = false ∧
     ((c6t0.set_layer 0 1 true 5).getClient 0).layer_pos = (3, 0) ∧
     ((c6t0.set_layer 0 1 true 5).getClient 1).layer_pos = (5, 0) ∧
     ((c6t0.getClient 0).flags.floating = false →
       ((c6t0.set_layer 0 1 true 5).getNode (c6t0.getClient 0).node).absent
         = false) ∧
     ((c6t0.getClient 0).flags.floating = true →
       ((c6t0.set_layer 0 1 true 5).getNode (c6t0.getClient 0).node).absent
         = (c6t0.getNode (c6t0.getClient 0).node).absent)) :=
  ⟨⟨by decide, by decide, by decide, by decide, by decide, by decide, by decide,
    by decide, by decide, by decide, by decide, by decide⟩,
   C6_single_slot_eviction c6t0 0 1 0 true 3 5 3 [] (by decide) (by decide)
     (by decide) (by decide) (by decide) (by decide) (by decide) (by decide)
     (by decide) (by decide) (by decide) (by decide)⟩

/-- Specification device (not from the source): the `k`-th strict ancestor
of a node along the `parent` chain (`0` = the node itself). -/
def Tag.ancestor (t : Tag) (n : Nat) : Nat → Option Nat
  | 0 => some n
  | k + 1 =>
    match t.ancestor n k with
    | some p => (t.getNode p).parent.map Prod.fst
    | Option.none => Option.none

/-- The walk of `get_split_parent` only ever reports nodes on the ancestor
chain of the starting node, at exactly the reported depth. -/
theorem gspGo_ancestor (t : Tag) (r : Rect) (dir : Side) :
    ∀ (fuel : Nat) (st : Option (Nat × Bool)) (i n : Nat),
      st.map Prod.fst = t.ancestor n (i + 1) →
      ∀ p b j, t.gspGo r dir st i fuel = (some (p, b), j) →
        t.ancestor n (j + 1) = some p := by
  intro fuel
  induction fuel with
  | zero =>
    intro st i n hst p b j hres
    cases st with
    | none => simp [Tag.gspGo] at hres
    | some pb =>
      obtain ⟨q, c⟩ := pb
      unfold Tag.gspGo at hres
      simp only [Prod.mk.injEq, Option.some.injEq] at hres
      obtain ⟨⟨h1, h2⟩, h3⟩ := hres
      subst h1
      subst h3
      exact hst.symm
  | succ fuel ih =>
    intro st i n hst p b j hres
    cases st with
    | none => simp [Tag.gspGo] at hres
    | some pb =>
      obtain ⟨q, c⟩ := pb
      unfold Tag.gspGo at hres
      split at hres
      · simp only [Prod.mk.injEq, Option.some.injEq] at hres
        obtain ⟨⟨h1, h2⟩, h3⟩ := hres
        subst h1
        subst h3
        exact hst.symm
      · have hq : t.ancestor n (i + 1) = some q := by
          rw [← hst]
          rfl
        have h2 : t.ancestor n (i + 1 + 1)
            = ((t.getNode q).parent).map Prod.fst := by
          rw [Tag.ancestor, hq]
        exact ih _ (i + 1) n h2.symm p b j hres

/-- C8: in `resize_client` on a tiled client, each of the two directional
split parents returned by `get_split_parent` lies on the ancestor chain of
the client node at the reported depth (so when both exist their subtrees
are nested and always share the client node: the overlap proviso always
holds), and the rect-recomputation queue contains exactly one start node
when both parents exist — the one found strictly further up when
`depth1 > depth2`, else the vertical one — and the sole existing parent or
nothing otherwise. -/
theorem C8_resize_queue (t : Tag) (node fuel : Nat) :
    (∀ (dir : Side) p b i,
      t.get_split_parent node dir fuel = (some (p, b), i) →
        t.ancestor node (i + 1) = some p) ∧
    (∀ (p1 p2 : Nat) (b1 b2 : Bool) (d1 d2 : Nat),
      resizeStartQueue (some (p1, b1)) (some (p2, b2)) d1 d2
        = [if d1 > d2 then p1 else p2]) ∧
    (∀ (p1 : Nat) (b1 : Bool) (d1 d2 : Nat),
      resizeStartQueue (some (p1, b1)) Option.none d1 d2 = [p1]) ∧
    (∀ (p2 : Nat) (b2 : Bool) (d1 d2 : Nat),
      resizeStartQueue Option.none (some (p2, b2)) d1 d2 = [p2]) ∧
    (∀ (d1 d2 : Nat), resizeStartQueue Option.none Option.none d1 d2 = []) := by
  refine ⟨?_, ?_, ?_, ?_, ?_⟩
  · intro dir p b i hres
    exact gspGo_ancestor t (t.getNode node).rect dir fuel
      (t.getNode node).parent 0 node (by rw [Tag.ancestor, Tag.ancestor]) p b i hres
  · intro p1 p2 b1 b2 d1 d2
    by_cases hd : d1 > d2 <;> simp [resizeStartQueue, hd]
  · intro p1 b1 d1 d2
    simp [resizeStartQueue]
  · intro p2 b2 d1 d2
    simp [resizeStartQueue]
  · intro d1 d2
    rfl

/-- `HashSet::insert`, with the set held as a duplicate-free list. -/
def insertSet (x : Nat) (s : List Nat) : List Nat :=
  if x ∈ s then s else s ++ [x]

/-- Modelled from the spec: `pop_set_ord` (from the current `utils.rs`,
absent from `src/`) pops from a set the member that comes first in the
given display order, returning it and the shrunken set. -/
def pop_set_ord (s : List Nat) (ord : List Nat) : Option Nat × List Nat :=
  match ord.find? (fun x => decide (x ∈ s)) with
  | some x => (some x, s.erase x)
  | Option.none => (Option.none, s)

/-- `Monitor` from `src/monitor/mod.rs` (panels and desktop windows are
display bookkeeping and carry no model state). -/
structure Monitor where
  id : Nat
  name : String
  focused_tag : Nat
  prev_tag : Nat
  sticky : List Nat
  size : Rect
  bg : Nat
deriving DecidableEq, Repr

instance : Inhabited Monitor :=
  ⟨⟨0, "", 0, 0, [], ⟨0, 0, 0, 0⟩, 0⟩⟩

/-- Modelled from the spec: the `WindowManager` state (its struct definition
is not in `src/`; the fields are the ones its methods in
`src/tag/mod.rs`, `src/monitor/mod.rs` and `src/tag/client.rs` use).  Hash
maps are association lists, hash sets duplicate-free lists; the `windows`
map and the display connection are display bookkeeping. -/
structure World where
  aux : AuxM
  tags : List (Nat × Tag)
  tag_order : List Nat
  free_tags : List Nat
  temp_tags : List Nat
  free_temp : List String
  monitors : List (Nat × Monitor)
  focused_monitor : Nat
deriving DecidableEq, Repr

def World.getTag (w : World) (id : Nat) : Tag :=
  (w.tags.lookup id).getD Tag.default

def World.setTag (w : World) (id : Nat) (t : Tag) : World :=
  { w with tags := w.tags.map fun p => if p.1 = id then (id, t) else p }

def World.getMon (w : World) (id : Nat) : Monitor :=
  (w.monitors.lookup id).getD Inhabited.default

def World.setMon (w : World) (id : Nat) (m : Monitor) : World :=
  { w with monitors := w.monitors.map fun p => if p.1 = id then (id, m) else p }

/-- `Tag::set_monitor` from `src/tag/mod.rs`: resize to the monitor, record
monitor/background/size on the tag and rotate the monitor tag history
(`free_rect` equals the monitor size as panels are not modelled; showing the
windows and the hook are display-only). -/
def Tag.set_monitor (t : Tag) (aux : AuxM) (m : Monitor) (fuel : Nat) :
    Tag × Monitor :=
  if m.focused_tag = t.id then (t, m)
  else
    let available := m.size
    let t := t.resize_all aux available m.size fuel
    let t := { t with monitor := some m.id, bg := some m.bg, size := m.size }
    let m := { m with prev_tag := m.focused_tag, focused_tag := t.id }
    (t, m)

/-- `Tag::hide` from `src/tag/mod.rs`: drop the monitor and background,
hide every non-sticky non-hidden client (whose only model effect is
clearing a selection that points into this tag), and unset the focus. -/
def Tag.hide (t : Tag) (aux : AuxM) : Tag × AuxM :=
  let t := { t with monitor := Option.none, bg := Option.none }
  let aux := (List.range t.clients.length).foldl
    (fun a i =>
      let c := t.getClient i
      if !c.flags.sticky && !c.flags.hidden then
        { a with selection := a.selection.hideSel (some t.id) (some c.node) }
      else a) aux
  (t.unset_focus, aux)

/-- `WindowManager::remove_client` from `src/tag/client.rs`. -/
def World.remove_client (w : World) (tagid client : Nat) (fuel : Nat) :
    World × (Nat × Nat) :=
  let t := w.getTag tagid
  let t := { t with urgent := t.urgent.erase client,
                    free_clients := insertSet client t.free_clients }
  let c := t.getClient client
  let t := t.setSlot c.layer_pos.1 ((t.getSlot c.layer_pos.1).removeClient client)
  let t := if !c.flags.hidden then { t with focus_stack := t.focus_stack.erase client }
           else t
  let t := t.modifyClient client fun cl =>
    { cl with flags := { cl.flags with hidden := true } }
  let t := if t.id = (w.getMon w.focused_monitor).focused_tag then t.set_focus else t
  let t := if c.node ≠ 0 then t.remove_node w.aux.gap c.node fuel
           else t.modifyNode 0 fun n => { n with info := .empty }
  let sel := w.aux.selection.hideSel (some t.id) (some c.node)
  let aux := { w.aux with selection := sel }
  ({ w.setTag tagid t with aux := aux }, (c.win, c.frame))

/-- `WindowManager::move_client` from `src/tag/client.rs`: resolve the
destination via the `SetArg` (against the previous tag of the source monitor),
then remove from the source tag and re-add to the destination, repositioning
a floating rect and restoring layer and focus. -/
def World.move_client (w : World) (tagid client : Nat) (set_dest : SetArg Nat)
    (fuel : Nat) : World × Nat :=
  let dest := match (w.getTag tagid).monitor with
    | some mon => (set_dest.apply_arg tagid (w.getMon mon).prev_tag).1
    | Option.none => set_dest.val
  if tagid = dest then (w, client)
  else
    let hide := decide ((w.getTag dest).monitor = Option.none)
    let t := w.getTag tagid
    let focus := decide (some client = t.focus_stack.head?)
    let c := t.getClient client
    let sel := w.aux.selection.hideSel (some t.id) (some c.node)
    let aux := if hide then { w.aux with selection := sel } else w.aux
    let w := { w with aux := aux }
    let info0 := (t.getNode c.node).info
    let old_size := t.size
    let shw := (decide (t.monitor = Option.none)) && !hide
    let w := (w.remove_client tagid client fuel).1
    let hidden := c.flags.hidden
    let t2 := w.getTag dest
    let info1 := match info0 with
      | .leaf l => NodeContents.leaf
          { l with floating := l.floating.reposition old_size t2.size }
      | x => x
    let ac := Tag.add_client w.aux t2 c Option.none info1 focus fuel
    let w := { w with aux := ac.1 }
    let t2 := ac.2.1
    let cidx := ac.2.2
    let t2 := t2.set_layer w.aux.gap cidx focus fuel
    let t2 := if shw && (!hidden && focus &&
        decide (t2.id = (w.getMon w.focused_monitor).focused_tag)) then
        t2.focus_client cidx
      else t2
    ((w.setTag dest t2), cidx)

/-- `WindowManager::set_monitor_tag` from `src/monitor/mod.rs`. -/
def World.set_monitor_tag (w : World) (mon tagid : Nat) (fuel : Nat) : World :=
  let old_tag := (w.getMon mon).focused_tag
  if old_tag = tagid then w
  else
    let old_valid := (w.tags.lookup old_tag).isSome
    let w := if old_valid then
        let th := (w.getTag old_tag).hide w.aux
        { w.setTag old_tag th.1 with aux := th.2 }
      else w
    let w := match (w.getTag tagid).monitor with
      | some old_mon =>
          let th := (w.getTag tagid).hide w.aux
          let w := { w.setTag tagid th.1 with aux := th.2 }
          if old_valid then
            let sm := (w.getTag old_tag).set_monitor w.aux (w.getMon old_mon) fuel
            let w := (w.setTag old_tag sm.1).setMon old_mon sm.2
            let res := (w.getMon old_mon).sticky.foldl
              (fun (acc : World × List Nat) cl =>
                let mc := acc.1.move_client tagid cl (SetArg.mk old_tag false) fuel
                (mc.1, acc.2 ++ [mc.2])) (w, [])
            let w := res.1
            w.setMon old_mon { w.getMon old_mon with sticky := res.2 }
          else w
      | Option.none =>
          { w with free_tags := insertSet old_tag (w.free_tags.erase tagid) }
    let sm := (w.getTag tagid).set_monitor w.aux (w.getMon mon) fuel
    let w := (w.setTag tagid sm.1).setMon mon sm.2
    if old_valid then
      let res := (w.getMon mon).sticky.foldl
        (fun (acc : World × List Nat) cl =>
          let mc := acc.1.move_client old_tag cl (SetArg.mk tagid false) fuel
          (mc.1, acc.2 ++ [mc.2])) (w, [])
      let w := res.1
      w.setMon mon { w.getMon mon with sticky := res.2 }
    else w

/-- `WindowManager::switch_monitor_tag` from `src/monitor/mod.rs`. -/
def World.switch_monitor_tag (w : World) (mon : Nat) (arg : SetArg Nat)
    (fuel : Nat) : World :=
  let w := match w.monitors.lookup mon with
    | some m =>
        let ar := arg.apply_arg m.focused_tag m.prev_tag
        if ar.2 then
          let w := w.set_monitor_tag mon ar.1 fuel
          let sel := w.aux.selection.hideSel
            ((w.monitors.lookup mon).map Monitor.prev_tag) Option.none
          { w with aux := { w.aux with selection := sel } }
        else w
    | Option.none => w
  if w.focused_monitor = mon then
    let ft := (w.getMon w.focused_monitor).focused_tag
    w.setTag ft (w.getTag ft).set_focus
  else w

/-- `WindowManager::remove_tag` from `src/tag/mod.rs`: a guard returns
immediately when no tag is free; otherwise the monitor showing the tag is
switched away (to the previous tag, or the first free tag in display
order), all live clients are moved to that tag, and the tag is dropped from
the display order and the map. -/
def World.remove_tag (w : World) (tagid : Nat) (fuel : Nat) : World :=
  if w.free_tags = [] then w
  else
    let wn : World × Nat := match (w.getTag tagid).monitor with
      | some mon_ =>
          let m := w.getMon mon_
          let pw : Nat × World :=
            if m.prev_tag ≠ m.focused_tag then (m.prev_tag, w)
            else
              let ps := pop_set_ord w.free_tags w.tag_order
              (ps.1.getD 0, { w with free_tags := ps.2 })
          let new_tag := pw.1
          let w := pw.2
          let w := w.switch_monitor_tag mon_ (SetArg.mk new_tag false) fuel
          let w := w.setMon mon_ { w.getMon mon_ with prev_tag := new_tag }
          (w, new_tag)
      | Option.none => (w, (w.getMon w.focused_monitor).focused_tag)
    let w := wn.1
    let new_tag := wn.2
    let live := (List.range (w.getTag tagid).clients.length).filter
      (fun i => decide (i ∉ (w.getTag tagid).free_clients))
    let w := live.foldl
      (fun wa i => (wa.move_client tagid i (SetArg.mk new_tag false) fuel).1) w
    let w := { w with tag_order := w.tag_order.filter (fun id => id ≠ tagid) }
    let tg := w.getTag tagid
    let w := { w with tags := w.tags.filter (fun p => p.1 ≠ tagid) }
    if tg.temp then
      { w with temp_tags := w.temp_tags.filter (fun id => id ≠ tagid),
               free_temp := w.free_temp ++ [tg.name] }
    else w

/-- `WindowManager::add_tag` from `src/tag/mod.rs`.  The atom the name
interns to is a parameter (`intern_atom` is a server call; the server gives
equal names equal atoms).  The hook is display-only. -/
def World.add_tag (w : World) (name : String) (id : Nat) (fuel : Nat) :
    World × Bool :=
  if (w.tags.lookup id).isSome then (w, false)
  else
    let tag := { Tag.default with id := id, name := name }
    let w := { w with tags := w.tags ++ [(id, tag)],
                      free_tags := insertSet id w.free_tags,
                      tag_order := w.tag_order ++ [id] }
    let w := match w.temp_tags.getLast? with
      | some tt => ({ w with temp_tags := w.temp_tags.dropLast }).remove_tag tt fuel
      | Option.none => w
    (w, true)

theorem not_mem_keys_of_lookup_none {α : Type _} :
    ∀ (l : List (Nat × α)) (k : Nat), l.lookup k = Option.none →
      k ∉ l.map Prod.fst := by
  intro l
  induction l with
  | nil =>
    intro k h
    simp
  | cons p rest ih =>
    intro k h
    simp only [List.lookup] at h
    cases hbeq : (k == p.1) with
    | true =>
        rw [hbeq] at h
        simp at h
    | false =>
        rw [hbeq] at h
        simp only [List.map_cons, List.mem_cons]
        push_neg
        refine ⟨?_, ih k h⟩
        intro he
        rw [he] at hbeq
        simp at hbeq

/-- A world with two empty tags: tag 1 shown on monitor 7 (the only
non-free tag) and tag 2 free. -/
def c9w : World :=
  { aux := auxPlain,
    tags := [(1, { Tag.default with id := 1, monitor := some 7 }),
             (2, { Tag.default with id := 2 })],
    tag_order := [1, 2],
    free_tags := [2],
    temp_tags := [],
    free_temp := [],
    monitors := [(7, { id := 7, name := "m", focused_tag := 1, prev_tag := 1,
                       sticky := [], size := ⟨0, 0, 1920, 1080⟩, bg := 99 })],
    focused_monitor := 7 }

/-- The same world with no free tag at all. -/
def c9nofree : World := { c9w with free_tags := [] }

/-- C9 counterexample: in `c9w` the selected tag 1 is the only non-free tag,
yet `remove_tag 1` is not a no-op — the monitor is switched to the free tag
2 and tag 1 disappears from both the tag map and the display order.  The
guard in the source is `free_tags.is_empty()`, not the selected tag being
the only non-free one. -/
theorem C9_counterexample_only_nonfree_tag_removed :
    (c9w.tags.map Prod.fst = [1, 2] ∧
     c9w.free_tags = [2] ∧
     (1 : Nat) ∉ c9w.free_tags ∧
     c9w.tag_order = [1, 2] ∧
     (c9w.getTag 1).clients = []) ∧
    ((c9w.remove_tag 1 5).tags.lookup 1 = Option.none ∧
     (c9w.remove_tag 1 5).tag_order = [2]) :=
  ⟨⟨rfl, rfl, by decide, rfl, rfl⟩, by decide, by decide⟩

/-- C9 (amended): `remove_tag` is a no-op exactly under the guard the source
checks — when the free-tag set is empty, so there is no spare tag to show;
every field of the world, in particular the tag map, the display order and
every tag\x27s clients, is left unchanged. -/
theorem C9_remove_tag_noop_amended (w : World) (tagid fuel : Nat)
    (h : w.free_tags = []) : w.remove_tag tagid fuel = w := by
  unfold World.remove_tag
  rw [if_pos h]

/-- C9 witness: with no free tag, removing tag 1 changes nothing. -/
theorem C9_witness :
    c9nofree.free_tags = [] ∧ c9nofree.remove_tag 1 5 = c9nofree :=
  ⟨rfl, C9_remove_tag_noop_amended c9nofree 1 5 rfl⟩

/-- C10: `add_tag` on a name whose atom already identifies a tag returns
`false` and leaves the world (tag map, free-tag set, display order)
untouched; on a fresh atom it appends the tag to the map and to the display
order, so atom keys and display-order entries stay duplicate-free. -/
theorem C10_add_tag_unique (w : World) (name : String) (id fuel : Nat) :
    ((w.tags.lookup id).isSome = true → w.add_tag name id fuel = (w, false)) ∧
    (w.tags.lookup id = Option.none → w.temp_tags = [] →
      (w.add_tag name id fuel).2 = true ∧
      (w.add_tag name id fuel).1.tags
        = w.tags ++ [(id, { Tag.default with id := id, name := name })] ∧
      (w.add_tag name id fuel).1.tag_order = w.tag_order ++ [id] ∧
      ((w.tags.map Prod.fst).Nodup →
        ((w.add_tag name id fuel).1.tags.map Prod.fst).Nodup) ∧
      (w.tag_order.Nodup → id ∉ w.tag_order →
        (w.add_tag name id fuel).1.tag_order.Nodup)) := by
  constructor
  · intro h
    unfold World.add_tag
    rw [if_pos h]
  · intro hnone htemp
    unfold World.add_tag
    rw [if_neg (by simp [hnone])]
    dsimp only
    rw [htemp]
    simp only [List.getLast?_nil]
    refine ⟨by first | rfl | trivial, by first | rfl | trivial,
      by first | rfl | trivial, ?_, ?_⟩
    · intro hnd
      have hnm := not_mem_keys_of_lookup_none w.tags id hnone
      simp only [List.map_append, List.map_cons, List.map_nil]
      refine List.Nodup.append hnd (List.nodup_singleton id) ?_
      intro x hx hx2
      simp only [List.mem_singleton] at hx2
      subst hx2
      exact hnm hx
    · intro hnd hnm
      refine List.Nodup.append hnd (List.nodup_singleton id) ?_
      intro x hx hx2
      simp only [List.mem_singleton] at hx2
      subst hx2
      exact hnm hx

/-- Specification device: the shape of a BSP subtree, recording for every
tree position the index of the backing entry in `nodes`. -/
inductive BTree where
  | leaf : Nat → BTree
  | node : Nat → BTree → BTree → BTree
deriving DecidableEq, Repr

def BTree.root : BTree → Nat
  | .leaf i => i
  | .node i _ _ => i

def BTree.indices : BTree → List Nat
  | .leaf i => [i]
  | .node i l r => i :: (l.indices ++ r.indices)

def BTree.innerIndices : BTree → List Nat
  | .leaf _ => []
  | .node i l r => i :: (l.innerIndices ++ r.innerIndices)

def BTree.size : BTree → Nat
  | .leaf _ => 1
  | .node _ l r => (l.size + r.size) + 1

/-- `B` faithfully describes the subtree stored in the tag: inner positions
are `Node` entries wired to the roots of their sub-shapes, leaf positions
are non-`Node` entries. -/
def RepT (t : Tag) : BTree → Bool
  | .leaf i =>
      match (t.getNode i).info with
      | .node _ => false
      | _ => true
  | .node i l r =>
      match (t.getNode i).info with
      | .node ni =>
          decide (ni.first_child = l.root) && decide (ni.second_child = r.root) &&
            RepT t l && RepT t r
      | _ => false

/-- The effect of one `rotate_nodes` on the stored contents of the rotated
node. -/
def flipInfo (rev : Bool) : NodeContents → NodeContents
  | .node ni =>
    match ni.split, rev with
    | .Horizontal, false =>
        .node { split := .Vertical, ratio := 1 - ni.ratio,
                first_child := ni.second_child, second_child := ni.first_child }
    | .Horizontal, true => .node { ni with split := .Vertical }
    | .Vertical, true =>
        .node { split := .Horizontal, ratio := 1 - ni.ratio,
                first_child := ni.second_child, second_child := ni.first_child }
    | .Vertical, false => .node { ni with split := .Horizontal }
  | x => x

/-- Whether `rotate_nodes` swaps the children for this split and direction. -/
def swapped (rev : Bool) : Split → Bool
  | .Horizontal => !rev
  | .Vertical => rev

/-- The structural counterpart of the `rotate` traversal: rotate the node,
then the second subtree, then the first. -/
def flipT (rev : Bool) : BTree → Tag → Tag
  | .leaf _, t => t
  | .node i l r, t =>
      flipT rev l (flipT rev r (t.rotate_nodes i l.root r.root rev))

/-- The shape that describes the subtree after one rotation pass. -/
def flipB (t : Tag) (rev : Bool) : BTree → BTree
  | .leaf i => .leaf i
  | .node i l r =>
      match (t.getNode i).info with
      | .node ni =>
          if swapped rev ni.split then .node i (flipB t rev r) (flipB t rev l)
          else .node i (flipB t rev l) (flipB t rev r)
      | _ => .node i (flipB t rev l) (flipB t rev r)

theorem flipB_root (t : Tag) (rev : Bool) : ∀ B : BTree, (flipB t rev B).root = B.root := by
  intro B
  cases B with
  | leaf i => rfl
  | node i l r =>
    unfold flipB
    split
    · split <;> rfl
    · rfl

theorem flipB_size (t : Tag) (rev : Bool) : ∀ B : BTree, (flipB t rev B).size = B.size := by
  intro B
  induction B with
  | leaf i => rfl
  | node i l r ihl ihr =>
    unfold flipB
    split
    · split
      · simp [BTree.size, ihl, ihr]
        omega
      · simp [BTree.size, ihl, ihr]
    · simp [BTree.size, ihl, ihr]

theorem flipB_indices_perm (t : Tag) (rev : Bool) :
    ∀ B : BTree, (flipB t rev B).indices.Perm B.indices := by
  intro B
  induction B with
  | leaf i => exact List.Perm.refl _
  | node i l r ihl ihr =>
    unfold flipB
    have hswap : ((flipB t rev r).indices ++ (flipB t rev l).indices).Perm
        (l.indices ++ r.indices) :=
      (List.Perm.append ihr ihl).trans (List.perm_append_comm)
    have hkeep : ((flipB t rev l).indices ++ (flipB t rev r).indices).Perm
        (l.indices ++ r.indices) :=
      List.Perm.append ihl ihr
    split
    · split
      · exact List.Perm.cons i hswap
      · exact List.Perm.cons i hkeep
    · exact List.Perm.cons i hkeep

theorem flipB_inner_mem (t : Tag) (rev : Bool) :
    ∀ (B : BTree) (j : Nat), j ∈ (flipB t rev B).innerIndices ↔ j ∈ B.innerIndices := by
  intro B
  induction B with
  | leaf i => intro j; simp [flipB, BTree.innerIndices]
  | node i l r ihl ihr =>
    intro j
    unfold flipB
    split
    · split
      · simp only [BTree.innerIndices, List.mem_cons, List.mem_append, ihl, ihr]
        tauto
      · simp only [BTree.innerIndices, List.mem_cons, List.mem_append, ihl, ihr]
    · simp only [BTree.innerIndices, List.mem_cons, List.mem_append, ihl, ihr]

theorem inner_subset_indices : ∀ (B : BTree) (j : Nat),
    j ∈ B.innerIndices → j ∈ B.indices := by
  intro B
  induction B with
  | leaf i => intro j h; simp [BTree.innerIndices] at h
  | node i l r ihl ihr =>
    intro j h
    simp only [BTree.innerIndices, List.mem_cons, List.mem_append] at h
    simp only [BTree.indices, List.mem_cons, List.mem_append]
    rcases h with h | h | h
    · exact Or.inl h
    · exact Or.inr (Or.inl (ihl j h))
    · exact Or.inr (Or.inr (ihr j h))

theorem flipInfo_four (rev : Bool) (x : NodeContents) :
    flipInfo rev (flipInfo rev (flipInfo rev (flipInfo rev x))) = x := by
  cases x with
  | node ni =>
    obtain ⟨sp, ra, fc, sc⟩ := ni
    cases sp <;> cases rev <;> simp [flipInfo]
  | leaf l => rfl
  | empty => rfl

theorem getNode_modifyNode_ne (t : Tag) {i j : Nat} (f : Node → Node)
    (h : i ≠ j) : (t.modifyNode i f).getNode j = t.getNode j := by
  unfold Tag.modifyNode Tag.setNode Tag.getNode
  exact getD_set_ne _ _ _ h

theorem infoEq_modifyNode (t : Tag) (i : Nat) (f : Node → Node)
    (hf : ∀ n, (f n).info = n.info) (j : Nat) :
    ((t.modifyNode i f).getNode j).info = (t.getNode j).info := by
  unfold Tag.modifyNode Tag.setNode Tag.getNode
  by_cases hij : i = j
  · subst hij
    by_cases hi : i < t.nodes.length
    · rw [getD_set_eq _ _ _ _ hi]
      exact hf _
    · rw [getD_set_le _ _ _ (Nat.le_of_not_lt hi)]
  · rw [getD_set_ne _ _ _ hij]

theorem info_setParent (t : Tag) (i : Nat) (pv : Option (Nat × Bool)) (j : Nat) :
    ((t.modifyNode i fun n => { n with parent := pv }).getNode j).info
      = (t.getNode j).info := by
  apply infoEq_modifyNode
  intro n
  rfl

theorem info_rotate_nodes_ne (t : Tag) (i c1 c2 : Nat) (rev : Bool) (j : Nat)
    (hji : j ≠ i) :
    ((t.rotate_nodes i c1 c2 rev).getNode j).info = (t.getNode j).info := by
  unfold Tag.rotate_nodes
  repeat' split
  all_goals first
    | rfl
    | rw [getNode_modifyNode_ne _ _ (Ne.symm hji), info_setParent, info_setParent]
    | rw [getNode_modifyNode_ne _ _ (Ne.symm hji)]

theorem info_rotate_nodes_self (t : Tag) (i c1 c2 : Nat) (rev : Bool)
    (ni : NodeInfo) (h : (t.getNode i).info = .node ni)
    (hlen : i < t.nodes.length) :
    ((t.rotate_nodes i c1 c2 rev).getNode i).info =
      (match ni.split, rev with
       | .Horizontal, false =>
           .node { split := .Vertical, ratio := 1 - ni.ratio,
                   first_child := c2, second_child := c1 }
       | .Horizontal, true => .node { ni with split := .Vertical }
       | .Vertical, true =>
           .node { split := .Horizontal, ratio := 1 - ni.ratio,
                   first_child := c2, second_child := c1 }
       | .Vertical, false => .node { ni with split := .Horizontal }) := by
  obtain ⟨sp, ra, fc, sc⟩ := ni
  unfold Tag.rotate_nodes
  rw [h]
  cases sp <;> cases rev <;>
    (dsimp only
     simp only [Bool.not_false, Bool.not_true, Bool.false_eq_true, if_true, if_false]
     unfold Tag.modifyNode Tag.setNode Tag.getNode
     rw [getD_set_eq _ _ _ _ (by simpa using hlen)])

theorem nodesOnly_rotate_nodes (t : Tag) (i c1 c2 : Nat) (rev : Bool) :
    NodesOnly t (t.rotate_nodes i c1 c2 rev) := by
  unfold Tag.rotate_nodes
  repeat' split
  all_goals first
    | exact NodesOnly.nrefl t
    | exact ((nodesOnly_modifyNode _ _ _).ntrans
        (nodesOnly_modifyNode _ _ _)).ntrans (nodesOnly_modifyNode _ _ _)
    | exact nodesOnly_modifyNode _ _ _

theorem nodesOnly_flipT (rev : Bool) :
    ∀ (B : BTree) (t : Tag), NodesOnly t (flipT rev B t) := by
  intro B
  induction B with
  | leaf i => intro t; exact NodesOnly.nrefl t
  | node i l r ihl ihr =>
    intro t
    exact ((nodesOnly_rotate_nodes t i l.root r.root rev).ntrans (ihr _)).ntrans (ihl _)

theorem RepT_congr : ∀ (B : BTree) (t u : Tag),
    (∀ j, j ∈ B.indices → (u.getNode j).info = (t.getNode j).info) →
    RepT u B = RepT t B := by
  intro B
  induction B with
  | leaf i =>
    intro t u h
    unfold RepT
    rw [h i (by simp [BTree.indices])]
  | node i l r ihl ihr =>
    intro t u h
    unfold RepT
    rw [h i (by simp [BTree.indices])]
    cases hinfo : (t.getNode i).info with
    | node ni =>
        rw [ihl t u fun j hj => h j (by simp [BTree.indices]; exact Or.inr (Or.inl hj)),
            ihr t u fun j hj => h j (by simp [BTree.indices]; exact Or.inr (Or.inr hj))]
    | leaf lf => rfl
    | empty => rfl

theorem flipT_info_frame (rev : Bool) : ∀ (B : BTree) (t : Tag) (j : Nat),
    j ∉ B.indices → ((flipT rev B t).getNode j).info = (t.getNode j).info := by
  intro B
  induction B with
  | leaf i => intro t j hj; rfl
  | node i l r ihl ihr =>
    intro t j hj
    simp only [BTree.indices, List.mem_cons, List.mem_append] at hj
    push_neg at hj
    obtain ⟨hji, hjl, hjr⟩ := hj
    unfold flipT
    rw [ihl _ _ hjl, ihr _ _ hjr, info_rotate_nodes_ne _ _ _ _ _ _ hji]

theorem RepT_node_elim {t : Tag} {i : Nat} {l r : BTree}
    (h : RepT t (.node i l r) = true) :
    ∃ ni, (t.getNode i).info = .node ni ∧ ni.first_child = l.root ∧
      ni.second_child = r.root ∧ RepT t l = true ∧ RepT t r = true := by
  unfold RepT at h
  revert h
  cases hinfo : (t.getNode i).info with
  | node ni =>
      intro h
      simp only [Bool.and_eq_true, decide_eq_true_eq] at h
      exact ⟨ni, rfl, h.1.1.1, h.1.1.2, h.1.2, h.2⟩
  | leaf lf => intro h; simp at h
  | empty => intro h; simp at h

theorem root_mem_indices : ∀ B : BTree, B.root ∈ B.indices := by
  intro B
  cases B <;> simp [BTree.root, BTree.indices]

/-- One rotation pass acts pointwise: every inner position of the subtree
has its contents flipped once, everything else is untouched. -/
theorem flipT_info (rev : Bool) : ∀ (B : BTree) (t : Tag),
    RepT t B = true → B.indices.Nodup →
    (∀ k ∈ B.indices, k < t.nodes.length) →
    ∀ j, ((flipT rev B t).getNode j).info =
      (if j ∈ B.innerIndices then flipInfo rev ((t.getNode j).info)
       else (t.getNode j).info) := by
  intro B
  induction B with
  | leaf i =>
    intro t hrep hnd hlen j
    simp [flipT, BTree.innerIndices]
  | node i l r ihl ihr =>
    intro t hrep hnd hlen j
    obtain ⟨ni, hinfo, hfc, hsc, hrepl, hrepr⟩ := RepT_node_elim hrep
    obtain ⟨sp, ra, fc, sc⟩ := ni
    dsimp only at hfc hsc
    subst hfc
    subst hsc
    simp only [BTree.indices, List.nodup_cons, List.nodup_append,
      List.mem_append] at hnd
    push_neg at hnd
    obtain ⟨⟨hil, hir⟩, hndl, hndr, hdisj⟩ := hnd
    unfold flipT
    set E1 := t.rotate_nodes i l.root r.root rev with hE1def
    have hE1info : ∀ k, k ≠ i → (E1.getNode k).info = (t.getNode k).info :=
      fun k hk => info_rotate_nodes_ne t i l.root r.root rev k hk
    have hE1len : E1.nodes.length = t.nodes.length :=
      (nodesOnly_rotate_nodes t i l.root r.root rev).2
    have hrepE1r : RepT E1 r = true := by
      rw [RepT_congr r t E1 fun k hk => hE1info k fun he => hir (he ▸ hk)]
      exact hrepr
    set E2 := flipT rev r E1 with hE2def
    have hE2frame : ∀ k, k ∉ r.indices → (E2.getNode k).info = (E1.getNode k).info :=
      fun k hk => flipT_info_frame rev r E1 k hk
    have hE2len : E2.nodes.length = E1.nodes.length := (nodesOnly_flipT rev r E1).2
    have hrepE2l : RepT E2 l = true := by
      rw [RepT_congr l t E2 fun k hk =>
        (hE2frame k fun hkr => hdisj hk hkr).trans
          (hE1info k fun he => hil (he ▸ hk))]
      exact hrepl
    have hlenE1 : ∀ k ∈ r.indices, k < E1.nodes.length := by
      intro k hk
      rw [hE1len]
      apply hlen
      simp only [BTree.indices, List.mem_cons, List.mem_append]
      exact Or.inr (Or.inr hk)
    have hlenE2 : ∀ k ∈ l.indices, k < E2.nodes.length := by
      intro k hk
      rw [hE2len, hE1len]
      apply hlen
      simp only [BTree.indices, List.mem_cons, List.mem_append]
      exact Or.inr (Or.inl hk)
    have ihr2 := ihr E1 hrepE1r hndr hlenE1
    have ihl2 := ihl E2 hrepE2l hndl hlenE2
    by_cases hji : j = i
    · subst hji
      rw [flipT_info_frame rev l E2 j hil, hE2frame j hir,
        info_rotate_nodes_self t j l.root r.root rev _ hinfo
          (hlen j (by simp [BTree.indices])),
        if_pos (by simp [BTree.innerIndices]), hinfo]
      cases sp <;> cases rev <;> rfl
    · by_cases hjr : j ∈ r.indices
      · have hjl : j ∉ l.indices := fun h => hdisj h hjr
        rw [flipT_info_frame rev l E2 j hjl, ihr2 j, hE1info j hji]
        by_cases hin : j ∈ r.innerIndices
        · rw [if_pos hin, if_pos (by
            simp only [BTree.innerIndices, List.mem_cons, List.mem_append]
            exact Or.inr (Or.inr hin))]
        · rw [if_neg hin, if_neg (by
            simp only [BTree.innerIndices, List.mem_cons, List.mem_append]
            push_neg
            exact ⟨hji, fun h => hjl (inner_subset_indices l j h), hin⟩)]
      · by_cases hjl : j ∈ l.indices
        · rw [ihl2 j, hE2frame j hjr, hE1info j hji]
          by_cases hin : j ∈ l.innerIndices
          · rw [if_pos hin, if_pos (by
              simp only [BTree.innerIndices, List.mem_cons, List.mem_append]
              exact Or.inr (Or.inl hin))]
          · rw [if_neg hin, if_neg (by
              simp only [BTree.innerIndices, List.mem_cons, List.mem_append]
              push_neg
              exact ⟨hji, hin, fun h => hjr (inner_subset_indices r j h)⟩)]
        · rw [flipT_info_frame rev l E2 j hjl, hE2frame j hjr, hE1info j hji,
            if_neg (by
              simp only [BTree.innerIndices, List.mem_cons, List.mem_append]
              push_neg
              exact ⟨hji, fun h => hjl (inner_subset_indices l j h),
                fun h => hjr (inner_subset_indices r j h)⟩)]

/-- After one pointwise flip, the flipped shape `flipB` again describes the
stored subtree. -/
theorem RepT_flip (rev : Bool) : ∀ (B : BTree) (t u : Tag),
    RepT t B = true → B.indices.Nodup →
    (∀ j ∈ B.indices, (u.getNode j).info =
        (if j ∈ B.innerIndices then flipInfo rev ((t.getNode j).info)
         else (t.getNode j).info)) →
    RepT u (flipB t rev B) = true := by
  intro B
  induction B with
  | leaf i =>
    intro t u hrep hnd hu
    have hui := hu i (by simp [BTree.indices])
    rw [if_neg (by simp [BTree.innerIndices])] at hui
    show RepT u (BTree.leaf i) = true
    unfold RepT at hrep ⊢
    rw [hui]
    exact hrep
  | node i l r ihl ihr =>
    intro t u hrep hnd hu
    obtain ⟨ni, hinfo, hfc, hsc, hrepl, hrepr⟩ := RepT_node_elim hrep
    obtain ⟨sp, ra, fc, sc⟩ := ni
    dsimp only at hfc hsc
    subst hfc
    subst hsc
    simp only [BTree.indices, List.nodup_cons, List.nodup_append,
      List.mem_append] at hnd
    push_neg at hnd
    obtain ⟨⟨hil, hir⟩, hndl, hndr, hdisj⟩ := hnd
    have hui := hu i (by simp [BTree.indices])
    rw [if_pos (by simp [BTree.innerIndices]), hinfo] at hui
    have hul : ∀ j ∈ l.indices, (u.getNode j).info =
        (if j ∈ l.innerIndices then flipInfo rev ((t.getNode j).info)
         else (t.getNode j).info) := by
      intro j hj
      have hji : j ≠ i := fun he => hil (he ▸ hj)
      have hjr : j ∉ r.indices := fun h => hdisj hj h
      have hx := hu j (by
        simp only [BTree.indices, List.mem_cons, List.mem_append]
        exact Or.inr (Or.inl hj))
      by_cases hin : j ∈ l.innerIndices
      · rw [if_pos (by
          simp only [BTree.innerIndices, List.mem_cons, List.mem_append]
          exact Or.inr (Or.inl hin))] at hx
        rw [if_pos hin]
        exact hx
      · rw [if_neg (by
          simp only [BTree.innerIndices, List.mem_cons, List.mem_append]
          push_neg
          exact ⟨hji, hin, fun h => hjr (inner_subset_indices r j h)⟩)] at hx
        rw [if_neg hin]
        exact hx
    have hur : ∀ j ∈ r.indices, (u.getNode j).info =
        (if j ∈ r.innerIndices then flipInfo rev ((t.getNode j).info)
         else (t.getNode j).info) := by
      intro j hj
      have hji : j ≠ i := fun he => hir (he ▸ hj)
      have hjl : j ∉ l.indices := fun h => hdisj h hj
      have hx := hu j (by
        simp only [BTree.indices, List.mem_cons, List.mem_append]
        exact Or.inr (Or.inr hj))
      by_cases hin : j ∈ r.innerIndices
      · rw [if_pos (by
          simp only [BTree.innerIndices, List.mem_cons, List.mem_append]
          exact Or.inr (Or.inr hin))] at hx
        rw [if_pos hin]
        exact hx
      · rw [if_neg (by
          simp only [BTree.innerIndices, List.mem_cons, List.mem_append]
          push_neg
          exact ⟨hji, fun h => hjl (inner_subset_indices l j h), hin⟩)] at hx
        rw [if_neg hin]
        exact hx
    have hl2 := ihl t u hrepl hndl hul
    have hr2 := ihr t u hrepr hndr hur
    unfold flipB
    rw [hinfo]
    cases sp <;> cases rev <;>
      simp [RepT, swapped, flipInfo, flipB_root, hui, hl2, hr2]

theorem rotateLoop_nil (t : Tag) (rev : Bool) (fuel : Nat) :
    t.rotateLoop rev [] fuel = t := by
  cases fuel <;> rfl

theorem rotateLoop_cons_node (t : Tag) (rev : Bool) (q : List Nat) (i fuel : Nat)
    (ni : NodeInfo) (h : (t.getNode i).info = .node ni) :
    t.rotateLoop rev (i :: q) (fuel + 1) =
      (t.rotate_nodes i ni.first_child ni.second_child rev).rotateLoop rev
        (ni.second_child :: ni.first_child :: q) fuel := by
  conv_lhs => unfold Tag.rotateLoop
  dsimp only
  rw [h]

theorem rotateLoop_cons_nonnode (t : Tag) (rev : Bool) (q : List Nat)
    (i fuel : Nat) (h : ∀ ni, (t.getNode i).info ≠ .node ni) :
    t.rotateLoop rev (i :: q) (fuel + 1) = t.rotateLoop rev q fuel := by
  conv_lhs => unfold Tag.rotateLoop
  dsimp only
  cases hinfo : (t.getNode i).info with
  | node ni => exact absurd hinfo (h ni)
  | leaf lf => rfl
  | empty => rfl

/-- The queue traversal of `rotate` computes the structural pass `flipT`. -/
theorem rotateLoop_flipT (rev : Bool) : ∀ (B : BTree) (t : Tag) (q : List Nat)
    (fuel : Nat), RepT t B = true → B.indices.Nodup →
    t.rotateLoop rev (B.root :: q) (fuel + B.size) =
      (flipT rev B t).rotateLoop rev q fuel := by
  intro B
  induction B with
  | leaf i =>
    intro t q fuel hrep hnd
    show t.rotateLoop rev (i :: q) (fuel + 1) = _
    rw [rotateLoop_cons_nonnode t rev q i fuel]
    · rfl
    · intro ni hni
      unfold RepT at hrep
      rw [hni] at hrep
      simp at hrep
  | node i l r ihl ihr =>
    intro t q fuel hrep hnd
    obtain ⟨ni, hinfo, hfc, hsc, hrepl, hrepr⟩ := RepT_node_elim hrep
    obtain ⟨sp, ra, fc, sc⟩ := ni
    dsimp only at hfc hsc
    subst hfc
    subst hsc
    simp only [BTree.indices, List.nodup_cons, List.nodup_append,
      List.mem_append] at hnd
    push_neg at hnd
    obtain ⟨⟨hil, hir⟩, hndl, hndr, hdisj⟩ := hnd
    show t.rotateLoop rev (i :: q) ((fuel + (l.size + r.size)) + 1) = _
    rw [rotateLoop_cons_node t rev q i (fuel + (l.size + r.size)) _ hinfo]
    dsimp only
    set E1 := t.rotate_nodes i l.root r.root rev with hE1def
    have hrepE1r : RepT E1 r = true := by
      rw [RepT_congr r t E1 fun k hk =>
        info_rotate_nodes_ne t i l.root r.root rev k fun he => hir (he ▸ hk)]
      exact hrepr
    rw [show fuel + (l.size + r.size) = (fuel + l.size) + r.size from
      (Nat.add_assoc _ _ _).symm]
    rw [ihr E1 (l.root :: q) (fuel + l.size) hrepE1r hndr]
    set E2 := flipT rev r E1 with hE2def
    have hrepE2l : RepT E2 l = true := by
      rw [RepT_congr l t E2 fun k hk =>
        (flipT_info_frame rev r E1 k fun hkr => hdisj hk hkr).trans
          (info_rotate_nodes_ne t i l.root r.root rev k fun he => hil (he ▸ hk))]
      exact hrepl
    rw [ihl E2 q fuel hrepE2l hndl]
    rfl

/-- One full `rotate` call: pointwise flip of the subtree contents,
representation by the flipped shape, and an unchanged node count. -/
theorem rotate_pass (rev : Bool) (gap : Int) (fuel : Nat) (B : BTree) (t : Tag)
    (hrep : RepT t B = true) (hnd : B.indices.Nodup)
    (hlen : ∀ k ∈ B.indices, k < t.nodes.length) :
    (∀ j, ((t.rotate gap B.root rev (fuel + B.size)).getNode j).info =
       (if j ∈ B.innerIndices then flipInfo rev ((t.getNode j).info)
        else (t.getNode j).info)) ∧
    RepT (t.rotate gap B.root rev (fuel + B.size)) (flipB t rev B) = true ∧
    (t.rotate gap B.root rev (fuel + B.size)).nodes.length = t.nodes.length := by
  have hrot : t.rotate gap B.root rev (fuel + B.size)
      = (flipT rev B t).resize_tiled gap B.root Option.none (fuel + B.size) := by
    unfold Tag.rotate
    rw [rotateLoop_flipT rev B t [] fuel hrep hnd, rotateLoop_nil]
  have hso := shapeOnly_resize_tiled_none (flipT rev B t) gap B.root (fuel + B.size)
  have hpt := flipT_info rev B t hrep hnd hlen
  refine ⟨?_, ?_, ?_⟩
  · intro j
    rw [hrot, (hso.2 j).1, hpt j]
  · apply RepT_flip rev B t _ hrep hnd
    intro j hj
    rw [hrot, (hso.2 j).1, hpt j]
  · rw [hrot]
    exact (hso.1.2).trans (nodesOnly_flipT rev B t).2

/-- C5: on a subtree faithfully described by a duplicate-free shape `B`,
applying `rotate` four times with the same `reverse` argument at the root
of `B` restores every stored node content — the split orientation, the
child order and the split ratio of every inner node of the subtree (and
every node outside it is never touched). -/
theorem C5_rotate_four_restores (t : Tag) (B : BTree) (rev : Bool) (gap : Int)
    (fuel : Nat)
    (hrep : RepT t B = true) (hnd : B.indices.Nodup)
    (hlen : ∀ k ∈ B.indices, k < t.nodes.length) (j : Nat) :
    (((((t.rotate gap B.root rev (fuel + B.size)).rotate gap B.root rev
        (fuel + B.size)).rotate gap B.root rev (fuel + B.size)).rotate gap
        B.root rev (fuel + B.size)).getNode j).info = (t.getNode j).info := by
  obtain ⟨p1, r1, len1⟩ := rotate_pass rev gap fuel B t hrep hnd hlen
  set t1 := t.rotate gap B.root rev (fuel + B.size) with ht1
  set B1 := flipB t rev B with hB1
  have hnd1 : B1.indices.Nodup := ((flipB_indices_perm t rev B).nodup_iff).mpr hnd
  have hmem1 : ∀ k, k ∈ B1.indices ↔ k ∈ B.indices :=
    fun k => (flipB_indices_perm t rev B).mem_iff
  have hlen1 : ∀ k ∈ B1.indices, k < t1.nodes.length := by
    intro k hk
    rw [len1]
    exact hlen k ((hmem1 k).mp hk)
  have hroot1 : B1.root = B.root := flipB_root t rev B
  have hsize1 : B1.size = B.size := flipB_size t rev B
  have h2 := rotate_pass rev gap fuel B1 t1 r1 hnd1 hlen1
  rw [hroot1, hsize1] at h2
  obtain ⟨p2, r2, len2⟩ := h2
  set t2 := t1.rotate gap B.root rev (fuel + B.size) with ht2
  set B2 := flipB t1 rev B1 with hB2
  have hnd2 : B2.indices.Nodup := ((flipB_indices_perm t1 rev B1).nodup_iff).mpr hnd1
  have hmem2 : ∀ k, k ∈ B2.indices ↔ k ∈ B1.indices :=
    fun k => (flipB_indices_perm t1 rev B1).mem_iff
  have hlen2 : ∀ k ∈ B2.indices, k < t2.nodes.length := by
    intro k hk
    rw [len2]
    exact hlen1 k ((hmem2 k).mp hk)
  have hroot2 : B2.root = B.root := (flipB_root t1 rev B1).trans hroot1
  have hsize2 : B2.size = B.size := (flipB_size t1 rev B1).trans hsize1
  have h3 := rotate_pass rev gap fuel B2 t2 r2 hnd2 hlen2
  rw [hroot2, hsize2] at h3
  obtain ⟨p3, r3, len3⟩ := h3
  set t3 := t2.rotate gap B.root rev (fuel + B.size) with ht3
  set B3 := flipB t2 rev B2 with hB3
  have hnd3 : B3.indices.Nodup := ((flipB_indices_perm t2 rev B2).nodup_iff).mpr hnd2
  have hmem3 : ∀ k, k ∈ B3.indices ↔ k ∈ B2.indices :=
    fun k => (flipB_indices_perm t2 rev B2).mem_iff
  have hlen3 : ∀ k ∈ B3.indices, k < t3.nodes.length := by
    intro k hk
    rw [len3]
    exact hlen2 k ((hmem3 k).mp hk)
  have hroot3 : B3.root = B.root := (flipB_root t2 rev B2).trans hroot2
  have hsize3 : B3.size = B.size := (flipB_size t2 rev B2).trans hsize2
  have h4 := rotate_pass rev gap fuel B3 t3 r3 hnd3 hlen3
  rw [hroot3, hsize3] at h4
  obtain ⟨p4, r4, len4⟩ := h4
  have hin1 : ∀ k, k ∈ B1.innerIndices ↔ k ∈ B.innerIndices :=
    fun k => flipB_inner_mem t rev B k
  have hin2 : ∀ k, k ∈ B2.innerIndices ↔ k ∈ B1.innerIndices :=
    fun k => flipB_inner_mem t1 rev B1 k
  have hin3 : ∀ k, k ∈ B3.innerIndices ↔ k ∈ B2.innerIndices :=
    fun k => flipB_inner_mem t2 rev B2 k
  rw [p4 j, p3 j, p2 j, p1 j]
  by_cases hj : j ∈ B.innerIndices
  · rw [if_pos ((hin3 j).mpr ((hin2 j).mpr ((hin1 j).mpr hj))),
      if_pos ((hin2 j).mpr ((hin1 j).mpr hj)), if_pos ((hin1 j).mpr hj),
      if_pos hj]
    exact flipInfo_four rev _
  · rw [if_neg (fun h => hj ((hin1 j).mp ((hin2 j).mp ((hin3 j).mp h)))),
      if_neg (fun h => hj ((hin1 j).mp ((hin2 j).mp h))),
      if_neg (fun h => hj ((hin1 j).mp h)), if_neg hj]

/-- The shape of the three-node subtree of `c3t0`. -/
def c5B : BTree := .node 0 (.leaf 1) (.leaf 2)

/-- C5 witness: four rotations of the three-node tag `c3t0` at its root
restore the root split contents. -/
theorem C5_witness :
    (RepT c3t0 c5B = true ∧ c5B.indices.Nodup ∧
      (∀ k ∈ c5B.indices, k < c3t0.nodes.length)) ∧
    (((((c3t0.rotate 0 c5B.root false (5 + c5B.size)).rotate 0 c5B.root false
        (5 + c5B.size)).rotate 0 c5B.root false (5 + c5B.size)).rotate 0
        c5B.root false (5 + c5B.size)).getNode 0).info = (c3t0.getNode 0).info :=
  ⟨⟨by decide, by decide, by decide⟩,
   C5_rotate_four_restores c3t0 c5B false 0 5 (by decide) (by decide)
     (by decide) 0⟩

end CWM
